import Mathlib

/-!
Verification development for `snap_download_orbit_files.py`
(`SentinelOrbitDownloader`): a shallow embedding of the timestamp
extractor, interval matcher, chunk partitioner, result reducer and
dispatch pairing, together with theorems settling the specified
properties.

Text is modelled as `List Char`.  `datetime` values are modelled by the
structure `DT`; `datetime.strptime` with the fixed format
`%Y%m%dT%H%M%S` is modelled after CPython's `_strptime` implementation:
the format compiles to the regex
`(\d\d\d\d)(1[0-2]|0[1-9]|[1-9])(3[01]|[12]\d|0[1-9]|[1-9])T(2[0-3]|[0-1]\d|\d)([0-5]\d|\d)(6[0-1]|[0-5]\d|\d)`
(compiled with IGNORECASE, so the literal `T` also accepts `t`); the
first match in backtracking order is taken, it must span the whole
string, and the `datetime` constructor then validates the fields.
Exceptions that the Python code does not catch (`IndexError` from
`timestamps[-2]`, `AttributeError` from `re.search(...).group(1)`,
`ValueError` from `range()` with step `0`) are modelled by `Option`
results, `none` meaning the computation raised.
-/

set_option maxHeartbeats 1000000

namespace SentinelOrbit

/-- Text is modelled as a list of characters. -/
abbrev Str := List Char

/-- A parsed `datetime` value (whole-second precision, as produced by
`datetime.strptime` with format `%Y%m%dT%H%M%S`, which has no
microsecond directive). -/
structure DT where
  year : Nat
  month : Nat
  day : Nat
  hour : Nat
  minute : Nat
  second : Nat
  deriving DecidableEq, Repr

/-- Python `datetime` comparison `a <= b`: lexicographic on the
components. -/
def DT.leB (a b : DT) : Bool :=
  if a.year ≠ b.year then decide (a.year < b.year)
  else if a.month ≠ b.month then decide (a.month < b.month)
  else if a.day ≠ b.day then decide (a.day < b.day)
  else if a.hour ≠ b.hour then decide (a.hour < b.hour)
  else if a.minute ≠ b.minute then decide (a.minute < b.minute)
  else decide (a.second ≤ b.second)

/-- Gregorian leap-year rule, as in Python's `calendar`/`datetime`. -/
def isLeap (y : Nat) : Bool :=
  decide (y % 4 = 0) && (decide (y % 100 ≠ 0) || decide (y % 400 = 0))

/-- Number of days of a month, as validated by the `datetime`
constructor. -/
def daysInMonth (y m : Nat) : Nat :=
  if m = 2 then (if isLeap y then 29 else 28)
  else if m = 4 ∨ m = 6 ∨ m = 9 ∨ m = 11 then 30
  else 31

/-- The character of a decimal digit. -/
def digitCh (d : Nat) : Char := Char.ofNat (48 + d)

/-- Zero-padded two-digit decimal rendering, as `strftime` renders
`%m`, `%d`, `%H`, `%M` and `%S`. -/
def pad2 (n : Nat) : Str := [digitCh (n / 10 % 10), digitCh (n % 10)]

/-- Four-digit decimal rendering `n / 1000 # n / 100 # n / 10 # n`
(the rendering of `%Y` for a four-digit year). -/
def pad4 (n : Nat) : Str :=
  [digitCh (n / 1000 % 10), digitCh (n / 100 % 10),
   digitCh (n / 10 % 10), digitCh (n % 10)]

/-- Rendering of `%Y` as CPython-on-glibc produces it: the year as a
plain decimal number, not zero-padded (`datetime(999, 1, 5)` renders as
`9990105...`).  `datetime` years lie in `1..9999`, so the four cases
cover every reachable value; above `9999` the value is unreachable and
the last case is kept total with the four-digit rendering. -/
def yearChars (y : Nat) : Str :=
  if y < 10 then [digitCh y]
  else if y < 100 then [digitCh (y / 10), digitCh (y % 10)]
  else if y < 1000 then [digitCh (y / 100), digitCh (y / 10 % 10), digitCh (y % 10)]
  else pad4 y

/-- Model of `datetime.strftime` with the fixed format
`"%Y%m%dT%H%M%S"` (source line 123 and the re-parse direction of the
round-trip property). -/
def strftimeEOF (t : DT) : Str :=
  yearChars t.year ++ pad2 t.month ++ pad2 t.day ++
    'T' :: (pad2 t.hour ++ pad2 t.minute ++ pad2 t.second)

/-- ASCII decimal-digit test (the regex class `\d`). -/
def isDig (c : Char) : Bool := decide (48 ≤ c.toNat) && decide (c.toNat ≤ 57)

/-- Numeric value of a digit character. -/
def digVal (c : Char) : Nat := c.toNat - 48

/-- Regex group for `%Y`: exactly four digits (`\d\d\d\d`). -/
def pYear : Str → Option (Nat × Str)
  | a :: b :: c :: d :: rest =>
      if isDig a = true ∧ isDig b = true ∧ isDig c = true ∧ isDig d = true then
        some (digVal a * 1000 + digVal b * 100 + digVal c * 10 + digVal d, rest)
      else none
  | _ => none

/-- Regex group for `%m`: the alternatives `1[0-2]`, `0[1-9]`, `[1-9]`
in backtracking preference order. -/
def pMonth (s : Str) : List (Nat × Str) :=
  (match s with
   | c1 :: c2 :: rest =>
       (if c1 = '1' ∧ isDig c2 = true ∧ digVal c2 ≤ 2 then
          [(10 + digVal c2, rest)] else []) ++
       (if c1 = '0' ∧ isDig c2 = true ∧ 1 ≤ digVal c2 then
          [(digVal c2, rest)] else [])
   | _ => []) ++
  (match s with
   | c1 :: rest =>
       if isDig c1 = true ∧ 1 ≤ digVal c1 then [(digVal c1, rest)] else []
   | [] => [])

/-- Regex group for `%d`: the alternatives `3[01]`, `[12]\d`, `0[1-9]`,
`[1-9]` in backtracking preference order. -/
def pDay (s : Str) : List (Nat × Str) :=
  (match s with
   | c1 :: c2 :: rest =>
       (if c1 = '3' ∧ (c2 = '0' ∨ c2 = '1') then
          [(30 + digVal c2, rest)] else []) ++
       (if (c1 = '1' ∨ c1 = '2') ∧ isDig c2 = true then
          [(digVal c1 * 10 + digVal c2, rest)] else []) ++
       (if c1 = '0' ∧ isDig c2 = true ∧ 1 ≤ digVal c2 then
          [(digVal c2, rest)] else [])
   | _ => []) ++
  (match s with
   | c1 :: rest =>
       if isDig c1 = true ∧ 1 ≤ digVal c1 then [(digVal c1, rest)] else []
   | [] => [])

/-- Literal `T` of the format (the compiled pattern carries
`re.IGNORECASE`, so lower-case `t` also matches). -/
def pT : Str → List Str
  | c :: rest => if c = 'T' ∨ c = 't' then [rest] else []
  | [] => []

/-- Regex group for `%H`: the alternatives `2[0-3]`, `[0-1]\d`, `\d` in
backtracking preference order. -/
def pHour (s : Str) : List (Nat × Str) :=
  (match s with
   | c1 :: c2 :: rest =>
       (if c1 = '2' ∧ isDig c2 = true ∧ digVal c2 ≤ 3 then
          [(20 + digVal c2, rest)] else []) ++
       (if (c1 = '0' ∨ c1 = '1') ∧ isDig c2 = true then
          [(digVal c1 * 10 + digVal c2, rest)] else [])
   | _ => []) ++
  (match s with
   | c1 :: rest => if isDig c1 = true then [(digVal c1, rest)] else []
   | [] => [])

/-- Regex group for `%M`: the alternatives `[0-5]\d`, `\d` in
backtracking preference order. -/
def pMinute (s : Str) : List (Nat × Str) :=
  (match s with
   | c1 :: c2 :: rest =>
       if isDig c1 = true ∧ digVal c1 ≤ 5 ∧ isDig c2 = true then
         [(digVal c1 * 10 + digVal c2, rest)] else []
   | _ => []) ++
  (match s with
   | c1 :: rest => if isDig c1 = true then [(digVal c1, rest)] else []
   | [] => [])

/-- Regex group for `%S`: the alternatives `6[0-1]`, `[0-5]\d`, `\d` in
backtracking preference order (CPython admits the leap seconds 60 and
61 in the regex; the `datetime` constructor rejects them afterwards). -/
def pSecond (s : Str) : List (Nat × Str) :=
  (match s with
   | c1 :: c2 :: rest =>
       (if c1 = '6' ∧ (c2 = '0' ∨ c2 = '1') then
          [(60 + digVal c2, rest)] else []) ++
       (if isDig c1 = true ∧ digVal c1 ≤ 5 ∧ isDig c2 = true then
          [(digVal c1 * 10 + digVal c2, rest)] else [])
   | _ => []) ++
  (match s with
   | c1 :: rest => if isDig c1 = true then [(digVal c1, rest)] else []
   | [] => [])

/-- Every prefix match of the compiled pattern of `%Y%m%dT%H%M%S`, in
the regex engine's backtracking order; the head is exactly the match
that `re.match` returns. -/
def rawMatches (s : Str) : List (DT × Str) :=
  (pYear s).toList.flatMap fun yr =>
    (pMonth yr.2).flatMap fun mo =>
      (pDay mo.2).flatMap fun dy =>
        (pT dy.2).flatMap fun r4 =>
          (pHour r4).flatMap fun hr =>
            (pMinute hr.2).flatMap fun mi =>
              (pSecond mi.2).map fun se =>
                (⟨yr.1, mo.1, dy.1, hr.1, mi.1, se.1⟩, se.2)

/-- The validation the `datetime` constructor performs beyond what the
regex already guarantees: year at least `MINYEAR = 1`, day within the
month, second at most `59`. -/
def dtOK (t : DT) : Bool :=
  decide (1 ≤ t.year) && decide (t.day ≤ daysInMonth t.year t.month) &&
    decide (t.second ≤ 59)

/-- Model of `datetime.strptime(s, "%Y%m%dT%H%M%S")`: take the first
backtracking match, require it to span the whole string (`_strptime`
raises `ValueError` on leftover text), then let the `datetime`
constructor validate the fields; `none` models `ValueError`. -/
def strptimeEOF (s : Str) : Option DT :=
  match (rawMatches s).head? with
  | none => none
  | some (t, rest) => if rest = [] ∧ dtOK t = true then some t else none

/-- Python `s.split('_')`: split at every underscore, keeping empty
parts. -/
def splitU : Str → List Str
  | [] => [[]]
  | c :: rest =>
      if c = '_' then [] :: splitU rest
      else
        match splitU rest with
        | g :: gs => (c :: g) :: gs
        | [] => [[c]]

/-- Python `l[-v:]` (for `v = 0` this is the whole list). -/
def lastV (v : Nat) (l : List Str) : List Str :=
  if v = 0 then l else l.drop (l.length - v)

/-- Python `ts.replace(".EOF", "")`: remove every occurrence, scanning
left to right without overlap. -/
def removeEOF : Str → Str
  | '.' :: 'E' :: 'O' :: 'F' :: rest => removeEOF rest
  | c :: rest => c :: removeEOF rest
  | [] => []

/-- Source line 113, per token: `ts.lstrip('V').replace('.EOF', '')`. -/
def stripToken (ts : Str) : Str :=
  removeEOF (ts.dropWhile (fun c => decide (c = 'V')))

/-- Source lines 112 and 113: `s.split('_')[-v:]`, each token
stripped. -/
def candidateTokens (s : Str) (v : Nat) : List Str :=
  (lastV v (splitU s)).map stripToken

/-- The candidate's validity interval (source lines 116 and 117): parse
token `[-2]` as the start and token `[-1]` as the end; `none` models the
caught `ValueError` of either `strptime` call.  The token-count guard
(whose failure is the uncaught `IndexError`) is placed in the caller. -/
def candidateInterval (s : Str) (v : Nat) : Option (DT × DT) :=
  let ts := candidateTokens s v
  if 2 ≤ ts.length then
    match strptimeEOF (ts.getD (ts.length - 2) []),
          strptimeEOF (ts.getD (ts.length - 1) []) with
    | some st, some en => some (st, en)
    | _, _ => none
  else none

/-- Source line 120: `acq_date >= timestamp_start and
acq_date <= timestamp_end`. -/
def coveredBy (st en t : DT) : Bool := DT.leB st t && DT.leB t en

/-- The covered acquisitions of an interval, re-serialized, in
acquisition order (source lines 119 to 123). -/
def coveredDates (acqs : List DT) (st en : DT) : List Str :=
  (acqs.filter (coveredBy st en)).map strftimeEOF

/-- A Python `dict` from candidate strings to lists of date strings,
modelled as an insertion-ordered association list with unique keys. -/
abbrev MatchMap := List (Str × List Str)

/-- `dict` lookup `m[k]` as an `Option`. -/
def alookup : MatchMap → Str → Option (List Str)
  | [], _ => none
  | (k', v) :: rest, k => if k' = k then some v else alookup rest k

/-- The keys of the mapping, in insertion order. -/
def akeys (m : MatchMap) : List Str := m.map (fun p => p.1)

/-- `dict` assignment `m[k] = v`: replace the value in place if the key
exists (Python keeps the key's insertion position), else append a new
entry. -/
def dictAssign : MatchMap → Str → List Str → MatchMap
  | [], k, v => [(k, v)]
  | (k', v') :: rest, k, v =>
      if k' = k then (k', v) :: rest else (k', v') :: dictAssign rest k v

/-- The per-candidate loop of `process_filtered_eof_chunk` (source
lines 111 to 126) with the `matching_dict` accumulator `m`.  A candidate
with fewer than two tokens makes `timestamps[-2]` raise `IndexError`,
which the `except ValueError` clause does not catch: the whole chunk
computation raises, modelled by `none`. -/
def matchGo (acqs : List DT) (v : Nat) : List Str → MatchMap → Option MatchMap
  | [], m => some m
  | s :: rest, m =>
      if 2 ≤ (candidateTokens s v).length then
        match candidateInterval s v with
        | some (st, en) =>
            if (acqs.filter (coveredBy st en)).isEmpty then
              matchGo acqs v rest m
            else
              matchGo acqs v rest (dictAssign m s (coveredDates acqs st en))
        | none => matchGo acqs v rest m
      else none

/-- Model of `process_filtered_eof_chunk(self, chunk,
acquisition_datetimes, date_format, v)` (source lines 108 to 128). -/
def processFilteredEofChunk (chunk : List Str) (acqs : List DT)
    (v : Nat) : Option MatchMap :=
  matchGo acqs v chunk []

/-- Model of source lines 157 to 159: `chunk_size =
len(sentinel1_eof_files) // CHUNK_DIVISOR` and `chunks =
[sentinel1_eof_files[i:i + chunk_size] for i in range(0,
len(sentinel1_eof_files), chunk_size)]`.  When the chunk size is `0`,
`range()` raises `ValueError: range() arg 3 must not be zero`
(also when the list is empty), modelled by `none`; `len // 0` would
likewise raise (`ZeroDivisionError`). -/
def chunkPartition (l : List Str) (d : Nat) : Option (List (List Str)) :=
  let size := l.length / d
  if size = 0 then none
  else
    some ((List.range' 0 ((l.length + size - 1) / size) size).map
      (fun i => (l.drop i).take size))

/-- `matching_dict.setdefault(filtered_eof, []).extend(matching_dates)`
(source line 167). -/
def extendEntry : MatchMap → Str → List Str → MatchMap
  | [], k, vs => [(k, vs)]
  | (k', v') :: rest, k, vs =>
      if k' = k then (k', v' ++ vs) :: rest
      else (k', v') :: extendEntry rest k vs

/-- The inner reducer loop over the `(candidate, covered-list)` pairs of
one chunk mapping (source lines 166 and 167). -/
def reducePairs (acc : MatchMap) : List (Str × List Str) → MatchMap
  | [] => acc
  | (k, vs) :: rest => reducePairs (extendEntry acc k vs) rest

/-- The result reducer of `process_orbit_data` (source lines 164 to
167): fold every per-chunk mapping, in chunk order, into one global
mapping. -/
def reduceMappings (ms : List MatchMap) : MatchMap :=
  ms.foldl reducePairs []

/-- First-occurrence deduplication with an explicit seen-set; used to
state the reducer's key order. -/
def dedupFirstAux (seen : List Str) : List Str → List Str
  | [] => []
  | k :: rest =>
      if k ∈ seen then dedupFirstAux seen rest
      else k :: dedupFirstAux (k :: seen) rest

/-- First-occurrence deduplication. -/
def dedupFirst (l : List Str) : List Str := dedupFirstAux [] l

/-- Model of `executor.map(self.process_filtered_eof_chunk, chunks,
...)` (source lines 160 and 161) with `NUM_TIMESTAMPS = 2`: the
per-chunk mappings in chunk order; `none` when any worker raised. -/
def mapChunks (acqs : List DT) : List (List Str) → Option (List MatchMap)
  | [] => some []
  | c :: cs =>
      match processFilteredEofChunk c acqs 2, mapChunks acqs cs with
      | some m, some ms => some (m :: ms)
      | _, _ => none

/-- Model of source lines 173, 174 and 177: `matching_eof_files =
list(matching_dict.keys())`, `matched_slc_acquisition_dates = [dates[0]
for dates in matching_dict.values()]` and their `zip`: one dispatch
pair per global entry, dated by the first element of its
covered-list. -/
def dispatchList (g : MatchMap) : List (Str × Str) :=
  g.map (fun p => (p.1, p.2.headD []))

/-- The pattern `\d{8}T\d{6}` of source line 143, tested at the start
of the text. -/
def acqPatAt : Str → Option Str
  | d1 :: d2 :: d3 :: d4 :: d5 :: d6 :: d7 :: d8 :: t ::
      h1 :: h2 :: h3 :: h4 :: h5 :: h6 :: _ =>
      if isDig d1 = true ∧ isDig d2 = true ∧ isDig d3 = true ∧
         isDig d4 = true ∧ isDig d5 = true ∧ isDig d6 = true ∧
         isDig d7 = true ∧ isDig d8 = true ∧ t = 'T' ∧
         isDig h1 = true ∧ isDig h2 = true ∧ isDig h3 = true ∧
         isDig h4 = true ∧ isDig h5 = true ∧ isDig h6 = true then
        some [d1, d2, d3, d4, d5, d6, d7, d8, t, h1, h2, h3, h4, h5, h6]
      else none
  | _ => none

/-- Model of `re.search(r"(\d{8}T\d{6})", filename)`: the leftmost
occurrence of the pattern. -/
def reSearchAcq : Str → Option Str
  | [] => none
  | c :: rest =>
      match acqPatAt (c :: rest) with
      | some found => some found
      | none => reSearchAcq rest

/-- Model of source line 143: `acquisition_dates =
[re.search(r"(\d{8}T\d{6})", filename).group(1) for filename in
sentinel1_slc_files]`.  When `re.search` finds nothing it returns
`None` and `.group(1)` raises `AttributeError`, which nothing catches:
the whole comprehension, and with it the run for this satellite,
aborts — modelled by `none`. -/
def extractDates : List Str → Option (List Str)
  | [] => some []
  | f :: fs =>
      match reSearchAcq f, extractDates fs with
      | some d, some ds => some (d :: ds)
      | _, _ => none

/-! ### Digit characters -/

lemma isDig_digitCh (d : Nat) (h : d ≤ 9) : isDig (digitCh d) = true := by
  interval_cases d <;> decide

lemma digVal_digitCh (d : Nat) (h : d ≤ 9) : digVal (digitCh d) = d := by
  interval_cases d <;> decide

lemma digitCh_eq_iff (d e : Nat) (hd : d ≤ 9) (he : e ≤ 9) :
    digitCh d = digitCh e ↔ d = e := by
  interval_cases d <;> interval_cases e <;> decide

lemma isDig_le (c : Char) (h : isDig c = true) : digVal c ≤ 9 := by
  simp only [isDig, Bool.and_eq_true, decide_eq_true_eq] at h
  simp only [digVal]
  omega

/-! ### Round-trip behaviour of the regex groups on canonical
zero-padded renderings -/

lemma pYear_pad4 (y : Nat) (h : y ≤ 9999) (r : Str) :
    pYear (pad4 y ++ r) = some (y, r) := by
  have h1 : y / 1000 % 10 ≤ 9 := by omega
  have h2 : y / 100 % 10 ≤ 9 := by omega
  have h3 : y / 10 % 10 ≤ 9 := by omega
  have h4 : y % 10 ≤ 9 := by omega
  simp only [pad4, List.cons_append, List.nil_append, pYear]
  rw [if_pos ⟨isDig_digitCh _ h1, isDig_digitCh _ h2, isDig_digitCh _ h3,
    isDig_digitCh _ h4⟩]
  rw [digVal_digitCh _ h1, digVal_digitCh _ h2, digVal_digitCh _ h3,
    digVal_digitCh _ h4]
  have : y / 1000 % 10 * 1000 + y / 100 % 10 * 100 + y / 10 % 10 * 10 + y % 10 = y := by
    omega
  rw [this]

lemma pMonth_pad2 (m : Nat) (h1 : 1 ≤ m) (h2 : m ≤ 12) (r : Str) :
    ∃ tl, pMonth (pad2 m ++ r) = (m, r) :: tl := by
  have hd2 : m % 10 ≤ 9 := by omega
  rcases Nat.lt_or_ge m 10 with hm | hm
  · have e1 : m / 10 % 10 = 0 := by omega
    have e2 : m % 10 = m := by omega
    refine ⟨[], ?_⟩
    simp only [pad2, e1, e2, List.cons_append, List.nil_append, pMonth]
    rw [if_neg (fun hc => absurd hc.1 (by decide)),
      if_pos ⟨by decide, isDig_digitCh m (by omega), by rw [digVal_digitCh m (by omega)]; omega⟩,
      if_neg (fun hc => absurd hc.2 (by decide)),
      digVal_digitCh m (by omega)]
    simp
  · have e1 : m / 10 % 10 = 1 := by omega
    refine ⟨[(1, digitCh (m % 10) :: r)], ?_⟩
    simp only [pad2, e1, List.cons_append, List.nil_append, pMonth]
    rw [if_pos ⟨by decide, isDig_digitCh _ hd2, by rw [digVal_digitCh _ hd2]; omega⟩,
      if_neg (fun hc => absurd hc.1 (by decide)),
      if_pos ⟨by decide, by decide⟩,
      digVal_digitCh _ hd2, show 10 + m % 10 = m by omega,
      show digVal (digitCh 1) = 1 from by decide]
    simp

lemma pDay_pad2 (d : Nat) (h1 : 1 ≤ d) (h2 : d ≤ 31) (r : Str) :
    ∃ tl, pDay (pad2 d ++ r) = (d, r) :: tl := by
  have hd2 : d % 10 ≤ 9 := by omega
  rcases Nat.lt_or_ge d 10 with hd | hd
  · have e1 : d / 10 % 10 = 0 := by omega
    have e2 : d % 10 = d := by omega
    refine ⟨[], ?_⟩
    simp only [pad2, e1, e2, List.cons_append, List.nil_append, pDay]
    rw [if_neg (fun hc => absurd hc.1 (by decide)),
      if_neg (fun hc => absurd hc.1 (by decide)),
      if_pos ⟨by decide, isDig_digitCh d (by omega), by rw [digVal_digitCh d (by omega)]; omega⟩,
      if_neg (fun hc => absurd hc.2 (by decide)),
      digVal_digitCh d (by omega)]
    simp
  · rcases Nat.lt_or_ge d 30 with hd' | hd'
    · have e1 : d / 10 % 10 = 1 ∨ d / 10 % 10 = 2 := by omega
      refine ⟨[(d / 10 % 10, digitCh (d % 10) :: r)], ?_⟩
      rcases e1 with e | e
      · simp only [pad2, e, List.cons_append, List.nil_append, pDay]
        rw [if_neg (fun hc => absurd hc.1 (by decide)),
          if_pos ⟨by decide, isDig_digitCh _ hd2⟩,
          if_neg (fun hc => absurd hc.1 (by decide)),
          if_pos ⟨by decide, by decide⟩,
          digVal_digitCh _ hd2,
          show digVal (digitCh 1) = 1 from by decide,
          show 1 * 10 + d % 10 = d from by omega]
        simp
      · simp only [pad2, e, List.cons_append, List.nil_append, pDay]
        rw [if_neg (fun hc => absurd hc.1 (by decide)),
          if_pos ⟨by decide, isDig_digitCh _ hd2⟩,
          if_neg (fun hc => absurd hc.1 (by decide)),
          if_pos ⟨by decide, by decide⟩,
          digVal_digitCh _ hd2,
          show digVal (digitCh 2) = 2 from by decide,
          show 2 * 10 + d % 10 = d from by omega]
        simp
    · have e1 : d / 10 % 10 = 3 := by omega
      have e2 : d % 10 = 0 ∨ d % 10 = 1 := by omega
      refine ⟨[(3, digitCh (d % 10) :: r)], ?_⟩
      simp only [pad2, e1, List.cons_append, List.nil_append, pDay]
      rw [if_pos ⟨by decide, by rcases e2 with e | e <;> rw [e] <;> decide⟩,
        if_neg (fun hc => absurd hc.1 (by decide)),
        if_neg (fun hc => absurd hc.1 (by decide)),
        if_pos ⟨by decide, by decide⟩,
        digVal_digitCh _ hd2, show 30 + d % 10 = d by omega,
        show digVal (digitCh 3) = 3 from by decide]
      simp

lemma pHour_pad2 (h : Nat) (h2 : h ≤ 23) (r : Str) :
    ∃ tl, pHour (pad2 h ++ r) = (h, r) :: tl := by
  have hd2 : h % 10 ≤ 9 := by omega
  rcases Nat.lt_or_ge h 20 with hh | hh
  · have e1 : h / 10 % 10 = 0 ∨ h / 10 % 10 = 1 := by omega
    refine ⟨[(h / 10 % 10, digitCh (h % 10) :: r)], ?_⟩
    rcases e1 with e | e
    · simp only [pad2, e, List.cons_append, List.nil_append, pHour]
      rw [if_neg (fun hc => absurd hc.1 (by decide)),
        if_pos ⟨by decide, isDig_digitCh _ hd2⟩,
        if_pos (by decide),
        digVal_digitCh _ hd2,
        show digVal (digitCh 0) = 0 from by decide,
        show 0 * 10 + h % 10 = h from by omega]
      simp
    · simp only [pad2, e, List.cons_append, List.nil_append, pHour]
      rw [if_neg (fun hc => absurd hc.1 (by decide)),
        if_pos ⟨by decide, isDig_digitCh _ hd2⟩,
        if_pos (by decide),
        digVal_digitCh _ hd2,
        show digVal (digitCh 1) = 1 from by decide,
        show 1 * 10 + h % 10 = h from by omega]
      simp
  · have e1 : h / 10 % 10 = 2 := by omega
    refine ⟨[(2, digitCh (h % 10) :: r)], ?_⟩
    simp only [pad2, e1, List.cons_append, List.nil_append, pHour]
    rw [if_pos ⟨by decide, isDig_digitCh _ hd2, by rw [digVal_digitCh _ hd2]; omega⟩,
      if_neg (fun hc => absurd hc.1 (by decide)),
      if_pos (by decide),
      digVal_digitCh _ hd2, show 20 + h % 10 = h by omega,
      show digVal (digitCh 2) = 2 from by decide]
    simp

lemma pMinute_pad2 (n : Nat) (h : n ≤ 59) (r : Str) :
    ∃ tl, pMinute (pad2 n ++ r) = (n, r) :: tl := by
  have hd1 : n / 10 % 10 ≤ 9 := by omega
  have hd2 : n % 10 ≤ 9 := by omega
  refine ⟨[(n / 10 % 10, digitCh (n % 10) :: r)], ?_⟩
  simp only [pad2, List.cons_append, List.nil_append, pMinute]
  rw [if_pos ⟨isDig_digitCh _ hd1, by rw [digVal_digitCh _ hd1]; omega,
      isDig_digitCh _ hd2⟩,
    if_pos (isDig_digitCh _ hd1),
    digVal_digitCh _ hd1, digVal_digitCh _ hd2,
    show n / 10 % 10 * 10 + n % 10 = n by omega]
  simp

lemma pSecond_pad2 (n : Nat) (h : n ≤ 59) (r : Str) :
    ∃ tl, pSecond (pad2 n ++ r) = (n, r) :: tl := by
  have hd1 : n / 10 % 10 ≤ 9 := by omega
  have hd2 : n % 10 ≤ 9 := by omega
  have hne : digitCh (n / 10 % 10) ≠ '6' := by
    intro hc
    have h6 : digitCh (n / 10 % 10) = digitCh 6 :=
      hc.trans (show ('6' : Char) = digitCh 6 from by decide)
    have := (digitCh_eq_iff (n / 10 % 10) 6 hd1 (by omega)).mp h6
    omega
  refine ⟨[(n / 10 % 10, digitCh (n % 10) :: r)], ?_⟩
  simp only [pad2, List.cons_append, List.nil_append, pSecond]
  rw [if_neg (fun hc => absurd hc.1 hne),
    if_pos ⟨isDig_digitCh _ hd1, by rw [digVal_digitCh _ hd1]; omega,
      isDig_digitCh _ hd2⟩,
    if_pos (isDig_digitCh _ hd1),
    digVal_digitCh _ hd1, digVal_digitCh _ hd2,
    show n / 10 % 10 * 10 + n % 10 = n by omega]
  simp

/-! ### Bounds of the regex groups -/

lemma pYear_le {s : Str} {y : Nat} {r : Str} (h : pYear s = some (y, r)) :
    y ≤ 9999 := by
  rcases s with _ | ⟨a, _ | ⟨b, _ | ⟨c, _ | ⟨d, rest⟩⟩⟩⟩ <;>
    simp only [pYear] at h <;> try exact Option.noConfusion h
  split_ifs at h with hc
  · obtain ⟨ha, hb, hcd, hd⟩ := hc
    have h1 := isDig_le a ha
    have h2 := isDig_le b hb
    have h3 := isDig_le c hcd
    have h4 := isDig_le d hd
    simp only [Option.some.injEq, Prod.mk.injEq] at h
    omega

lemma pMonth_mem {s : Str} {x : Nat} {r : Str} (h : (x, r) ∈ pMonth s) :
    1 ≤ x ∧ x ≤ 12 := by
  rcases s with _ | ⟨c1, _ | ⟨c2, rest⟩⟩ <;>
    simp only [pMonth, List.mem_append] at h
  · simp at h
  · rcases h with h | h
    · simp at h
    · split_ifs at h with hc
      · simp only [List.mem_singleton, Prod.mk.injEq] at h
        have := isDig_le c1 hc.1
        omega
      · simp at h
  · rcases h with h | h
    · rcases h with h | h <;> split_ifs at h with hc <;>
        try simp only [List.mem_singleton, Prod.mk.injEq] at h
      · obtain ⟨hx, -⟩ := h
        have := hc.2.2
        omega
      · simp at h
      · obtain ⟨hx, -⟩ := h
        have := isDig_le c2 hc.2.1
        have := hc.2.2
        omega
      · simp at h
    · split_ifs at h with hc
      · simp only [List.mem_singleton, Prod.mk.injEq] at h
        have := isDig_le c1 hc.1
        omega
      · simp at h

lemma pDay_mem {s : Str} {x : Nat} {r : Str} (h : (x, r) ∈ pDay s) :
    1 ≤ x ∧ x ≤ 31 := by
  rcases s with _ | ⟨c1, _ | ⟨c2, rest⟩⟩ <;>
    simp only [pDay, List.mem_append] at h
  · simp at h
  · rcases h with h | h
    · simp at h
    · split_ifs at h with hc
      · simp only [List.mem_singleton, Prod.mk.injEq] at h
        have := isDig_le c1 hc.1
        omega
      · simp at h
  · rcases h with h | h
    · rcases h with h | h
      · rcases h with h | h <;> split_ifs at h with hc <;>
          try simp only [List.mem_singleton, Prod.mk.injEq] at h
        · obtain ⟨hx, -⟩ := h
          rcases hc.2 with e | e <;> subst e <;> simp [digVal] at hx ⊢ <;> omega
        · simp at h
        · obtain ⟨hx, -⟩ := h
          have hd2 := isDig_le c2 hc.2
          rcases hc.1 with e | e <;> subst e <;>
            simp only [show digVal '1' = 1 from by decide,
              show digVal '2' = 2 from by decide] at hx <;> omega
        · simp at h
      · split_ifs at h with hc
        · simp only [List.mem_singleton, Prod.mk.injEq] at h
          have := isDig_le c2 hc.2.1
          have := hc.2.2
          omega
        · simp at h
    · split_ifs at h with hc
      · simp only [List.mem_singleton, Prod.mk.injEq] at h
        have := isDig_le c1 hc.1
        omega
      · simp at h

lemma pHour_mem {s : Str} {x : Nat} {r : Str} (h : (x, r) ∈ pHour s) :
    x ≤ 23 := by
  rcases s with _ | ⟨c1, _ | ⟨c2, rest⟩⟩ <;>
    simp only [pHour, List.mem_append] at h
  · simp at h
  · rcases h with h | h
    · simp at h
    · split_ifs at h with hc
      · simp only [List.mem_singleton, Prod.mk.injEq] at h
        have := isDig_le c1 hc
        omega
      · simp at h
  · rcases h with h | h
    · rcases h with h | h <;> split_ifs at h with hc <;>
        try simp only [List.mem_singleton, Prod.mk.injEq] at h
      · obtain ⟨hx, -⟩ := h
        have := hc.2.2
        omega
      · simp at h
      · obtain ⟨hx, -⟩ := h
        have hd2 := isDig_le c2 hc.2
        rcases hc.1 with e | e <;> subst e <;>
          simp only [show digVal '0' = 0 from by decide,
            show digVal '1' = 1 from by decide] at hx <;> omega
      · simp at h
    · split_ifs at h with hc
      · simp only [List.mem_singleton, Prod.mk.injEq] at h
        have := isDig_le c1 hc
        omega
      · simp at h

lemma pMinute_mem {s : Str} {x : Nat} {r : Str} (h : (x, r) ∈ pMinute s) :
    x ≤ 59 := by
  rcases s with _ | ⟨c1, _ | ⟨c2, rest⟩⟩ <;>
    simp only [pMinute, List.mem_append] at h
  · simp at h
  · rcases h with h | h
    · simp at h
    · split_ifs at h with hc
      · simp only [List.mem_singleton, Prod.mk.injEq] at h
        have := isDig_le c1 hc
        omega
      · simp at h
  · rcases h with h | h
    · split_ifs at h with hc
      · simp only [List.mem_singleton, Prod.mk.injEq] at h
        obtain ⟨hx, -⟩ := h
        have := isDig_le c2 hc.2.2
        have := hc.2.1
        omega
      · simp at h
    · split_ifs at h with hc
      · simp only [List.mem_singleton, Prod.mk.injEq] at h
        have := isDig_le c1 hc
        omega
      · simp at h

lemma pSecond_mem {s : Str} {x : Nat} {r : Str} (h : (x, r) ∈ pSecond s) :
    x ≤ 61 := by
  rcases s with _ | ⟨c1, _ | ⟨c2, rest⟩⟩ <;>
    simp only [pSecond, List.mem_append] at h
  · simp at h
  · rcases h with h | h
    · simp at h
    · split_ifs at h with hc
      · simp only [List.mem_singleton, Prod.mk.injEq] at h
        have := isDig_le c1 hc
        omega
      · simp at h
  · rcases h with h | h
    · rcases h with h | h <;> split_ifs at h with hc <;>
        try simp only [List.mem_singleton, Prod.mk.injEq] at h
      · obtain ⟨hx, -⟩ := h
        rcases hc.2 with e | e <;> subst e <;>
          simp only [show digVal '0' = 0 from by decide,
            show digVal '1' = 1 from by decide] at hx <;> omega
      · simp at h
      · obtain ⟨hx, -⟩ := h
        have := isDig_le c2 hc.2.2
        have := hc.2.1
        omega
      · simp at h
    · split_ifs at h with hc
      · simp only [List.mem_singleton, Prod.mk.injEq] at h
        have := isDig_le c1 hc
        omega
      · simp at h

lemma rawMatches_mem {s : Str} {t : DT} {r : Str} (h : (t, r) ∈ rawMatches s) :
    t.year ≤ 9999 ∧ 1 ≤ t.month ∧ t.month ≤ 12 ∧ 1 ≤ t.day ∧ t.day ≤ 31 ∧
    t.hour ≤ 23 ∧ t.minute ≤ 59 ∧ t.second ≤ 61 := by
  simp only [rawMatches, List.mem_flatMap, List.mem_map, Option.mem_toList] at h
  obtain ⟨yr, hyr, h⟩ := h
  obtain ⟨mo, hmo, h⟩ := h
  obtain ⟨dy, hdy, h⟩ := h
  obtain ⟨r4, hr4, h⟩ := h
  obtain ⟨hr, hhr, h⟩ := h
  obtain ⟨mi, hmi, h⟩ := h
  obtain ⟨se, hse, heq⟩ := h
  obtain ⟨y, r1⟩ := yr
  have hy := pYear_le (Option.mem_def.mp hyr)
  obtain ⟨m, r2⟩ := mo
  have hm := pMonth_mem hmo
  obtain ⟨d, r3⟩ := dy
  have hd := pDay_mem hdy
  obtain ⟨hh, r5⟩ := hr
  have hhb := pHour_mem hhr
  obtain ⟨mn, r6⟩ := mi
  have hmn := pMinute_mem hmi
  obtain ⟨sc, r7⟩ := se
  have hsc := pSecond_mem hse
  obtain ⟨heq1, -⟩ := Prod.mk.injEq .. ▸ heq
  rw [← heq1]
  exact ⟨hy, hm.1, hm.2, hd.1, hd.2, hhb, hmn, hsc⟩

lemma strptimeEOF_valid {s : Str} {t : DT} (h : strptimeEOF s = some t) :
    1 ≤ t.year ∧ t.year ≤ 9999 ∧ 1 ≤ t.month ∧ t.month ≤ 12 ∧ 1 ≤ t.day ∧
    t.day ≤ daysInMonth t.year t.month ∧ t.hour ≤ 23 ∧ t.minute ≤ 59 ∧
    t.second ≤ 59 := by
  rcases he : rawMatches s with _ | ⟨⟨t', rest⟩, tl⟩ <;>
    simp only [strptimeEOF, he, List.head?_nil, List.head?_cons] at h <;>
    try exact Option.noConfusion h
  split_ifs at h with hc
  · obtain ⟨hrest, hok⟩ := hc
    have ht : t' = t := by simpa using h
    subst ht
    have hmem : (t', rest) ∈ rawMatches s := by
      rw [he]
      exact List.mem_cons_self _ _
    have hb := rawMatches_mem hmem
    simp only [dtOK, Bool.and_eq_true, decide_eq_true_eq] at hok
    exact ⟨hok.1.1, hb.1, hb.2.1, hb.2.2.1, hb.2.2.2.1, hok.1.2,
      hb.2.2.2.2.2.1, hb.2.2.2.2.2.2.1, hok.2⟩

/-! ### The canonical serialization parses back to the same value -/

lemma rawMatches_canonical (t : DT) (h1 : 1000 ≤ t.year) (h2 : t.year ≤ 9999)
    (h3 : 1 ≤ t.month) (h4 : t.month ≤ 12) (h5 : 1 ≤ t.day) (h6 : t.day ≤ 31)
    (h7 : t.hour ≤ 23) (h8 : t.minute ≤ 59) (h9 : t.second ≤ 59) :
    (rawMatches (strftimeEOF t)).head? = some (t, []) := by
  obtain ⟨tlM, hM⟩ := pMonth_pad2 t.month h3 h4
    (pad2 t.day ++ 'T' :: (pad2 t.hour ++ (pad2 t.minute ++ pad2 t.second)))
  obtain ⟨tlD, hD⟩ := pDay_pad2 t.day h5 h6
    ('T' :: (pad2 t.hour ++ (pad2 t.minute ++ pad2 t.second)))
  obtain ⟨tlH, hH⟩ := pHour_pad2 t.hour h7 (pad2 t.minute ++ pad2 t.second)
  obtain ⟨tlMin, hMin⟩ := pMinute_pad2 t.minute h8 (pad2 t.second)
  obtain ⟨tlS, hS⟩ := pSecond_pad2 t.second h9 []
  rw [List.append_nil] at hS
  have hY : yearChars t.year = pad4 t.year := by
    rw [yearChars, if_neg (by omega), if_neg (by omega), if_neg (by omega)]
  simp only [strftimeEOF, hY, List.append_assoc, rawMatches]
  rw [pYear_pad4 t.year (by omega)]
  simp only [Option.toList_some, List.flatMap_cons, List.flatMap_nil,
    List.append_nil]
  rw [hM]
  simp only [List.flatMap_cons]
  rw [hD]
  simp only [List.flatMap_cons]
  simp only [pT, true_or, if_true, List.flatMap_cons, List.flatMap_nil,
    List.append_nil]
  rw [hH]
  simp only [List.flatMap_cons]
  rw [hMin]
  simp only [List.flatMap_cons]
  rw [hS]
  simp only [List.map_cons, List.cons_append, List.head?_cons]

lemma serialize_parse (t : DT) (h1 : 1000 ≤ t.year) (h2 : t.year ≤ 9999)
    (h3 : 1 ≤ t.month) (h4 : t.month ≤ 12) (h5 : 1 ≤ t.day)
    (h6 : t.day ≤ daysInMonth t.year t.month) (h7 : t.hour ≤ 23)
    (h8 : t.minute ≤ 59) (h9 : t.second ≤ 59) :
    strptimeEOF (strftimeEOF t) = some t := by
  have h6' : t.day ≤ 31 := le_trans h6 (by
    rw [daysInMonth]
    split_ifs <;> omega)
  have hc := rawMatches_canonical t h1 h2 h3 h4 h5 h6' h7 h8 h9
  have hok : dtOK t = true := by
    simp only [dtOK, Bool.and_eq_true, decide_eq_true_eq]
    exact ⟨⟨by omega, h6⟩, h9⟩
  simp [strptimeEOF, hc, hok]

/-! ### Dictionary model lemmas -/

lemma alookup_none_iff (m : MatchMap) (k : Str) :
    alookup m k = none ↔ k ∉ akeys m := by
  induction m with
  | nil => simp [alookup, akeys]
  | cons p rest ih =>
      obtain ⟨k', v⟩ := p
      by_cases h : k' = k
      · subst h
        simp [alookup, akeys]
      · have h' : ¬(k = k') := fun hh => h hh.symm
        simp [alookup, akeys, h, h', ih]

lemma alookup_mem {m : MatchMap} {k : Str} {vs : List Str}
    (h : alookup m k = some vs) : (k, vs) ∈ m := by
  induction m with
  | nil => simp [alookup] at h
  | cons p rest ih =>
      obtain ⟨k', v⟩ := p
      by_cases hk : k' = k
      · subst hk
        simp [alookup] at h
        subst h
        exact List.mem_cons_self _ _
      · simp only [alookup, if_neg hk] at h
        exact List.mem_cons_of_mem _ (ih h)

lemma alookup_dictAssign (m : MatchMap) (k k' : Str) (v : List Str) :
    alookup (dictAssign m k v) k' =
      if k' = k then some v else alookup m k' := by
  induction m with
  | nil =>
      by_cases h : k' = k
      · subst h
        simp [dictAssign, alookup]
      · have h' : ¬(k = k') := fun hh => h hh.symm
        simp [dictAssign, alookup, h, h']
  | cons p rest ih =>
      obtain ⟨k0, v0⟩ := p
      by_cases h0 : k0 = k
      · subst h0
        by_cases h : k' = k0
        · subst h
          simp [dictAssign, alookup]
        · have h' : ¬(k0 = k') := fun hh => h hh.symm
          simp [dictAssign, alookup, h, h']
      · by_cases h : k' = k0
        · subst h
          simp [dictAssign, alookup, h0]
        · have h' : ¬(k0 = k') := fun hh => h hh.symm
          simp [dictAssign, alookup, h0, h', ih]

lemma akeys_dictAssign (m : MatchMap) (k : Str) (v : List Str) :
    akeys (dictAssign m k v) =
      if k ∈ akeys m then akeys m else akeys m ++ [k] := by
  induction m with
  | nil => simp [dictAssign, akeys]
  | cons p rest ih =>
      obtain ⟨k0, v0⟩ := p
      by_cases h0 : k0 = k
      · subst h0
        simp [dictAssign, akeys]
      · have h0' : ¬(k = k0) := fun hh => h0 hh.symm
        simp only [dictAssign, if_neg h0, akeys, List.map_cons] at ih ⊢
        rw [ih]
        by_cases hm : k ∈ List.map Prod.fst rest
        · simp [hm, h0']
        · simp [hm, h0']

lemma mem_dictAssign {m : MatchMap} {k a : Str} {v b : List Str}
    (h : (a, b) ∈ dictAssign m k v) : (a = k ∧ b = v) ∨ (a, b) ∈ m := by
  induction m with
  | nil =>
      simp only [dictAssign, List.mem_singleton, Prod.mk.injEq] at h
      exact Or.inl h
  | cons p rest ih =>
      obtain ⟨k0, v0⟩ := p
      by_cases h0 : k0 = k
      · subst h0
        simp only [dictAssign, if_pos rfl] at h
        cases h with
        | head => exact Or.inl ⟨rfl, rfl⟩
        | tail b hm => exact Or.inr (List.mem_cons_of_mem _ hm)
      · simp only [dictAssign, if_neg h0] at h
        cases h with
        | head => exact Or.inr (List.mem_cons_self _ _)
        | tail b hm =>
            rcases ih hm with h2 | h2
            · exact Or.inl h2
            · exact Or.inr (List.mem_cons_of_mem _ h2)

lemma dictAssign_not_mem {m : MatchMap} {k : Str} (v : List Str)
    (h : k ∉ akeys m) : dictAssign m k v = m ++ [(k, v)] := by
  induction m with
  | nil => simp [dictAssign]
  | cons p rest ih =>
      obtain ⟨k0, v0⟩ := p
      simp only [akeys, List.map_cons, List.mem_cons] at h
      push_neg at h
      have h1 : ¬(k0 = k) := fun hh => h.1 hh.symm
      simp only [dictAssign, if_neg h1, List.cons_append, List.cons.injEq,
        true_and]
      exact ih (by simpa [akeys] using h.2)

lemma dictAssign_append_right {pre : MatchMap} {k : Str} (macc : MatchMap)
    (v : List Str) (h : k ∉ akeys pre) :
    dictAssign (pre ++ macc) k v = pre ++ dictAssign macc k v := by
  induction pre with
  | nil => simp
  | cons p rest ih =>
      obtain ⟨k0, v0⟩ := p
      simp only [akeys, List.map_cons, List.mem_cons] at h
      push_neg at h
      have h1 : ¬(k0 = k) := fun hh => h.1 hh.symm
      simp only [List.cons_append, dictAssign, if_neg h1, List.cons.injEq,
        true_and]
      exact ih (by simpa [akeys] using h.2)

lemma alookup_extendEntry (m : MatchMap) (k k' : Str) (vs : List Str) :
    alookup (extendEntry m k vs) k' =
      if k' = k then some ((alookup m k).getD [] ++ vs) else alookup m k' := by
  induction m with
  | nil =>
      by_cases h : k' = k
      · subst h
        simp [extendEntry, alookup]
      · have h' : ¬(k = k') := fun hh => h hh.symm
        simp [extendEntry, alookup, h, h']
  | cons p rest ih =>
      obtain ⟨k0, v0⟩ := p
      by_cases h0 : k0 = k
      · subst h0
        by_cases h : k' = k0
        · subst h
          simp [extendEntry, alookup]
        · have h' : ¬(k0 = k') := fun hh => h hh.symm
          simp [extendEntry, alookup, h, h']
      · by_cases h : k' = k0
        · subst h
          simp [extendEntry, alookup, h0]
        · have h' : ¬(k0 = k') := fun hh => h hh.symm
          have h0' : ¬(k = k0) := fun hh => h0 hh.symm
          simp [extendEntry, alookup, h0, h', h0', ih]

lemma akeys_extendEntry (m : MatchMap) (k : Str) (vs : List Str) :
    akeys (extendEntry m k vs) =
      if k ∈ akeys m then akeys m else akeys m ++ [k] := by
  induction m with
  | nil => simp [extendEntry, akeys]
  | cons p rest ih =>
      obtain ⟨k0, v0⟩ := p
      by_cases h0 : k0 = k
      · subst h0
        simp [extendEntry, akeys]
      · have h0' : ¬(k = k0) := fun hh => h0 hh.symm
        simp only [extendEntry, if_neg h0, akeys, List.map_cons] at ih ⊢
        rw [ih]
        by_cases hm : k ∈ List.map Prod.fst rest
        · simp [hm, h0']
        · simp [hm, h0']

lemma extendEntry_not_mem {m : MatchMap} {k : Str} (vs : List Str)
    (h : k ∉ akeys m) : extendEntry m k vs = m ++ [(k, vs)] := by
  induction m with
  | nil => simp [extendEntry]
  | cons p rest ih =>
      obtain ⟨k0, v0⟩ := p
      simp only [akeys, List.map_cons, List.mem_cons] at h
      push_neg at h
      have h1 : ¬(k0 = k) := fun hh => h.1 hh.symm
      simp only [extendEntry, if_neg h1, List.cons_append, List.cons.injEq,
        true_and]
      exact ih (by simpa [akeys] using h.2)

/-! ### Interval-matcher lemmas -/

lemma matchGo_nil (acqs : List DT) (v : Nat) (m : MatchMap) :
    matchGo acqs v [] m = some m := rfl

lemma matchGo_cons_crash {v : Nat} {s : Str} (acqs : List DT)
    (rest : List Str) (m : MatchMap)
    (h : ¬2 ≤ (candidateTokens s v).length) :
    matchGo acqs v (s :: rest) m = none := by
  simp [matchGo, h]

lemma matchGo_cons_skip {v : Nat} {s : Str} (acqs : List DT)
    (rest : List Str) (m : MatchMap)
    (h2 : 2 ≤ (candidateTokens s v).length)
    (hi : candidateInterval s v = none) :
    matchGo acqs v (s :: rest) m = matchGo acqs v rest m := by
  simp [matchGo, h2, hi]

lemma matchGo_cons_nomatch {acqs : List DT} {v : Nat} {s : Str} {st en : DT}
    (rest : List Str) (m : MatchMap)
    (h2 : 2 ≤ (candidateTokens s v).length)
    (hi : candidateInterval s v = some (st, en))
    (hemp : (acqs.filter (coveredBy st en)).isEmpty = true) :
    matchGo acqs v (s :: rest) m = matchGo acqs v rest m := by
  simp [matchGo, h2, hi, hemp]

lemma matchGo_cons_match {acqs : List DT} {v : Nat} {s : Str} {st en : DT}
    (rest : List Str) (m : MatchMap)
    (h2 : 2 ≤ (candidateTokens s v).length)
    (hi : candidateInterval s v = some (st, en))
    (hemp : (acqs.filter (coveredBy st en)).isEmpty = false) :
    matchGo acqs v (s :: rest) m =
      matchGo acqs v rest (dictAssign m s (coveredDates acqs st en)) := by
  simp [matchGo, h2, hi, hemp]

lemma candidateInterval_len {s : Str} {v : Nat} {st en : DT}
    (h : candidateInterval s v = some (st, en)) :
    2 ≤ (candidateTokens s v).length := by
  by_contra hc
  simp [candidateInterval, hc] at h

lemma matchGo_untouched {acqs : List DT} {v : Nat} {chunk : List Str}
    {m m' : MatchMap} {s : Str} (hgo : matchGo acqs v chunk m = some m')
    (hs : s ∉ chunk) : alookup m' s = alookup m s := by
  induction chunk generalizing m with
  | nil =>
      rw [matchGo_nil] at hgo
      injection hgo with h
      rw [h]
  | cons c rest ih =>
      have hcs : ¬(s = c) ∧ s ∉ rest := by
        simpa [List.mem_cons, not_or] using hs
      by_cases hlen : 2 ≤ (candidateTokens c v).length
      · rcases hci : candidateInterval c v with _ | ⟨st', en'⟩
        · rw [matchGo_cons_skip acqs rest m hlen hci] at hgo
          exact ih hgo hcs.2
        · by_cases hemp : (acqs.filter (coveredBy st' en')).isEmpty = true
          · rw [matchGo_cons_nomatch rest m hlen hci hemp] at hgo
            exact ih hgo hcs.2
          · rw [matchGo_cons_match rest m hlen hci
              (by simpa using hemp)] at hgo
            rw [ih hgo hcs.2, alookup_dictAssign, if_neg hcs.1]
      · rw [matchGo_cons_crash acqs rest m hlen] at hgo
        exact Option.noConfusion hgo

lemma matchGo_lookup {acqs : List DT} {v : Nat} {chunk : List Str}
    {m m' : MatchMap} {s : Str} {st en : DT}
    (hgo : matchGo acqs v chunk m = some m') (hs : s ∈ chunk)
    (hi : candidateInterval s v = some (st, en)) :
    alookup m' s =
      if (acqs.filter (coveredBy st en)).isEmpty = true then alookup m s
      else some (coveredDates acqs st en) := by
  induction chunk generalizing m with
  | nil => simp at hs
  | cons c rest ih =>
      by_cases hlen : 2 ≤ (candidateTokens c v).length
      · rcases hci : candidateInterval c v with _ | ⟨st', en'⟩
        · rw [matchGo_cons_skip acqs rest m hlen hci] at hgo
          rcases List.mem_cons.mp hs with rfl | hs'
          · rw [hci] at hi
            exact Option.noConfusion hi
          · exact ih hgo hs'
        · by_cases hemp : (acqs.filter (coveredBy st' en')).isEmpty = true
          · rw [matchGo_cons_nomatch rest m hlen hci hemp] at hgo
            rcases List.mem_cons.mp hs with rfl | hs'
            · have hpair : st' = st ∧ en' = en := by
                have := hci.symm.trans hi
                simpa using this
              obtain ⟨rfl, rfl⟩ := hpair
              by_cases hrest : s ∈ rest
              · exact ih hgo hrest
              · rw [if_pos hemp]
                exact matchGo_untouched hgo hrest
            · exact ih hgo hs'
          · rw [matchGo_cons_match rest m hlen hci (by simpa using hemp)] at hgo
            rcases List.mem_cons.mp hs with rfl | hs'
            · have hpair : st' = st ∧ en' = en := by
                have := hci.symm.trans hi
                simpa using this
              obtain ⟨rfl, rfl⟩ := hpair
              rw [if_neg hemp]
              by_cases hrest : s ∈ rest
              · rw [ih hgo hrest, if_neg hemp]
              · rw [matchGo_untouched hgo hrest, alookup_dictAssign, if_pos rfl]
            · by_cases hsc : s = c
              · subst hsc
                have hpair : st' = st ∧ en' = en := by
                  have := hci.symm.trans hi
                  simpa using this
                obtain ⟨rfl, rfl⟩ := hpair
                rw [if_neg hemp, ih hgo hs', if_neg hemp]
              · rw [ih hgo hs', alookup_dictAssign, if_neg hsc]
      · rw [matchGo_cons_crash acqs rest m hlen] at hgo
        exact Option.noConfusion hgo

lemma matchGo_mem {acqs : List DT} {v : Nat} {chunk : List Str}
    {m' : MatchMap} {k : Str} {vs : List Str} :
    ∀ {m : MatchMap}, matchGo acqs v chunk m = some m' → (k, vs) ∈ m' →
      (k, vs) ∈ m ∨
        (k ∈ chunk ∧ ∃ st en, candidateInterval k v = some (st, en) ∧
          (acqs.filter (coveredBy st en)).isEmpty = false ∧
          vs = coveredDates acqs st en) := by
  induction chunk with
  | nil =>
      intro m hgo hmem
      rw [matchGo_nil] at hgo
      injection hgo with h
      subst h
      exact Or.inl hmem
  | cons c rest ih =>
      intro m hgo hmem
      by_cases hlen : 2 ≤ (candidateTokens c v).length
      · rcases hci : candidateInterval c v with _ | ⟨st', en'⟩
        · rw [matchGo_cons_skip acqs rest m hlen hci] at hgo
          rcases ih hgo hmem with h | ⟨hk, hrest⟩
          · exact Or.inl h
          · exact Or.inr ⟨List.mem_cons_of_mem _ hk, hrest⟩
        · by_cases hemp : (acqs.filter (coveredBy st' en')).isEmpty = true
          · rw [matchGo_cons_nomatch rest m hlen hci hemp] at hgo
            rcases ih hgo hmem with h | ⟨hk, hrest⟩
            · exact Or.inl h
            · exact Or.inr ⟨List.mem_cons_of_mem _ hk, hrest⟩
          · rw [matchGo_cons_match rest m hlen hci (by simpa using hemp)] at hgo
            rcases ih hgo hmem with h | ⟨hk, hrest⟩
            · rcases mem_dictAssign h with ⟨rfl, rfl⟩ | h2
              · exact Or.inr ⟨List.mem_cons_self _ _,
                  st', en', hci, by simpa using hemp, rfl⟩
              · exact Or.inl h2
            · exact Or.inr ⟨List.mem_cons_of_mem _ hk, hrest⟩
      · rw [matchGo_cons_crash acqs rest m hlen] at hgo
        exact Option.noConfusion hgo

lemma matchGo_nodup {acqs : List DT} {v : Nat} {chunk : List Str}
    {m m' : MatchMap} (hgo : matchGo acqs v chunk m = some m')
    (hnd : (akeys m).Nodup) : (akeys m').Nodup := by
  induction chunk generalizing m with
  | nil =>
      rw [matchGo_nil] at hgo
      injection hgo with h
      rw [← h]
      exact hnd
  | cons c rest ih =>
      by_cases hlen : 2 ≤ (candidateTokens c v).length
      · rcases hci : candidateInterval c v with _ | ⟨st', en'⟩
        · rw [matchGo_cons_skip acqs rest m hlen hci] at hgo
          exact ih hgo hnd
        · by_cases hemp : (acqs.filter (coveredBy st' en')).isEmpty = true
          · rw [matchGo_cons_nomatch rest m hlen hci hemp] at hgo
            exact ih hgo hnd
          · rw [matchGo_cons_match rest m hlen hci (by simpa using hemp)] at hgo
            refine ih hgo ?_
            rw [akeys_dictAssign]
            by_cases hc : c ∈ akeys m
            · simpa [hc] using hnd
            · simp only [if_neg hc]
              simp [List.nodup_append, hnd, hc]
      · rw [matchGo_cons_crash acqs rest m hlen] at hgo
        exact Option.noConfusion hgo

lemma matchGo_isSome {acqs : List DT} {v : Nat} {chunk : List Str}
    (m : MatchMap) (h : ∀ s ∈ chunk, 2 ≤ (candidateTokens s v).length) :
    ∃ m', matchGo acqs v chunk m = some m' := by
  induction chunk generalizing m with
  | nil => exact ⟨m, rfl⟩
  | cons c rest ih =>
      have hlen : 2 ≤ (candidateTokens c v).length :=
        h c (List.mem_cons_self _ _)
      have hrest : ∀ s ∈ rest, 2 ≤ (candidateTokens s v).length :=
        fun s hs => h s (List.mem_cons_of_mem _ hs)
      rcases hci : candidateInterval c v with _ | ⟨st', en'⟩
      · rw [matchGo_cons_skip acqs rest m hlen hci]
        exact ih m hrest
      · by_cases hemp : (acqs.filter (coveredBy st' en')).isEmpty = true
        · rw [matchGo_cons_nomatch rest m hlen hci hemp]
          exact ih m hrest
        · rw [matchGo_cons_match rest m hlen hci (by simpa using hemp)]
          exact ih _ hrest

lemma matchGo_append {acqs : List DT} {v : Nat} (a b : List Str)
    (m : MatchMap) :
    matchGo acqs v (a ++ b) m =
      match matchGo acqs v a m with
      | some m1 => matchGo acqs v b m1
      | none => none := by
  induction a generalizing m with
  | nil => rw [List.nil_append, matchGo_nil]
  | cons c rest ih =>
      rw [List.cons_append]
      by_cases hlen : 2 ≤ (candidateTokens c v).length
      · rcases hci : candidateInterval c v with _ | ⟨st', en'⟩
        · rw [matchGo_cons_skip acqs (rest ++ b) m hlen hci,
            matchGo_cons_skip acqs rest m hlen hci, ih]
        · by_cases hemp : (acqs.filter (coveredBy st' en')).isEmpty = true
          · rw [matchGo_cons_nomatch (rest ++ b) m hlen hci hemp,
              matchGo_cons_nomatch rest m hlen hci hemp, ih]
          · rw [matchGo_cons_match (rest ++ b) m hlen hci (by simpa using hemp),
              matchGo_cons_match rest m hlen hci (by simpa using hemp), ih]
      · rw [matchGo_cons_crash acqs (rest ++ b) m hlen,
          matchGo_cons_crash acqs rest m hlen]

lemma matchGo_shift {acqs : List DT} {v : Nat} {b : List Str}
    {pre : MatchMap} (macc : MatchMap)
    (hdisj : ∀ k ∈ akeys pre, k ∉ b) :
    matchGo acqs v b (pre ++ macc) =
      (matchGo acqs v b macc).map (fun mb => pre ++ mb) := by
  induction b generalizing macc with
  | nil => rfl
  | cons c rest ih =>
      have hdisj' : ∀ k ∈ akeys pre, k ∉ rest := fun k hk =>
        fun hc => hdisj k hk (List.mem_cons_of_mem _ hc)
      have hcpre : c ∉ akeys pre := fun hc =>
        hdisj c hc (List.mem_cons_self _ _)
      by_cases hlen : 2 ≤ (candidateTokens c v).length
      · rcases hci : candidateInterval c v with _ | ⟨st', en'⟩
        · rw [matchGo_cons_skip acqs rest _ hlen hci,
            matchGo_cons_skip acqs rest macc hlen hci, ih macc hdisj']
        · by_cases hemp : (acqs.filter (coveredBy st' en')).isEmpty = true
          · rw [matchGo_cons_nomatch rest _ hlen hci hemp,
              matchGo_cons_nomatch rest macc hlen hci hemp, ih macc hdisj']
          · rw [matchGo_cons_match rest _ hlen hci (by simpa using hemp),
              matchGo_cons_match rest macc hlen hci (by simpa using hemp),
              dictAssign_append_right macc _ hcpre, ih _ hdisj']
      · rw [matchGo_cons_crash acqs rest _ hlen,
          matchGo_cons_crash acqs rest macc hlen]
        rfl

lemma matchGo_filter {acqs : List DT} {v : Nat} {chunk : List Str}
    (m : MatchMap) (h : ∀ s ∈ chunk, 2 ≤ (candidateTokens s v).length) :
    matchGo acqs v (chunk.filter (fun s => (candidateInterval s v).isSome)) m =
      matchGo acqs v chunk m := by
  induction chunk generalizing m with
  | nil => rfl
  | cons c rest ih =>
      have hlen : 2 ≤ (candidateTokens c v).length :=
        h c (List.mem_cons_self _ _)
      have hrest : ∀ s ∈ rest, 2 ≤ (candidateTokens s v).length :=
        fun s hs => h s (List.mem_cons_of_mem _ hs)
      rcases hci : candidateInterval c v with _ | ⟨st', en'⟩
      · rw [List.filter_cons_of_neg (by simp [hci]),
          matchGo_cons_skip acqs rest m hlen hci]
        exact ih m hrest
      · rw [List.filter_cons_of_pos (by simp [hci])]
        by_cases hemp : (acqs.filter (coveredBy st' en')).isEmpty = true
        · rw [matchGo_cons_nomatch _ m hlen hci hemp,
            matchGo_cons_nomatch rest m hlen hci hemp]
          exact ih m hrest
        · rw [matchGo_cons_match _ m hlen hci (by simpa using hemp),
            matchGo_cons_match rest m hlen hci (by simpa using hemp)]
          exact ih _ hrest

/-! ### Chunk-partitioner lemmas -/

lemma range'_map_shift {β : Type} :
    ∀ (k s step : Nat) (f : Nat → β),
      (List.range' s k step).map f =
        (List.range' 0 k step).map (fun i => f (s + i)) := by
  intro k
  induction k with
  | zero => intro s step f; simp
  | succ k ih =>
      intro s step f
      rw [List.range'_succ, List.range'_succ, List.map_cons, List.map_cons]
      simp only [Nat.zero_add, Nat.add_zero]
      rw [ih (s + step) step f, ih step step (fun i => f (s + i))]
      congr 1
      apply List.map_congr_left
      intro i hi
      rw [Nat.add_assoc]

lemma slices_flatten {α : Type} (step : Nat) (hstep : 0 < step) :
    ∀ (k : Nat) (l : List α), k = (l.length + step - 1) / step →
      ((List.range' 0 k step).map (fun i => (l.drop i).take step)).flatten = l := by
  intro k
  induction k with
  | zero =>
      intro l hk
      have hlen : l.length = 0 := by
        rcases Nat.eq_zero_or_pos l.length with h0 | h1
        · exact h0
        · exfalso
          have hge : step ≤ l.length + step - 1 := by omega
          have h2 : step / step ≤ (l.length + step - 1) / step :=
            Nat.div_le_div_right hge
          rw [Nat.div_self hstep] at h2
          omega
      rw [List.eq_nil_of_length_eq_zero hlen]
      simp
  | succ k ih =>
      intro l hk
      have hlen1 : 1 ≤ l.length := by
        by_contra hc
        have h0 : l.length = 0 := by omega
        rw [h0] at hk
        have : (0 + step - 1) / step = 0 := Nat.div_eq_of_lt (by omega)
        omega
      have hsplit : l.length + step - 1 = (l.length - 1) + step := by omega
      rw [hsplit, Nat.add_div_right _ hstep] at hk
      have hk' : k = (l.length - 1) / step := by omega
      rw [List.range'_succ, List.map_cons, List.flatten_cons, List.drop_zero]
      simp only [Nat.zero_add]
      rw [range'_map_shift k step step]
      have harg : (fun i => ((l.drop (step + i)).take step)) =
          (fun i => (((l.drop step).drop i).take step)) := by
        funext i
        rw [List.drop_drop, Nat.add_comm]
      rw [harg, ih (l.drop step) ?_]
      · exact List.take_append_drop step l
      · rw [List.length_drop]
        rcases le_or_lt l.length step with hcase | hcase
        · have h1 : l.length - step = 0 := by omega
          have h2 : (0 + step - 1) / step = 0 := Nat.div_eq_of_lt (by omega)
          have h3 : (l.length - 1) / step = 0 := Nat.div_eq_of_lt (by omega)
          rw [h1, h2, hk']
          exact h3
        · have h1 : l.length - step + step - 1 = (l.length - 1 - step) + step := by
            omega
          have h2 : l.length - 1 = (l.length - 1 - step) + step := by omega
          have h3 : (l.length - 1) / step = (l.length - 1 - step) / step + 1 := by
            conv_lhs => rw [h2]
            rw [Nat.add_div_right _ hstep]
          rw [h1, Nat.add_div_right _ hstep, hk', h3]

lemma chunkPartition_flatten {l : List Str} {d : Nat} {cs : List (List Str)}
    (h : chunkPartition l d = some cs) : cs.flatten = l := by
  simp only [chunkPartition] at h
  by_cases hz : l.length / d = 0
  · rw [if_pos hz] at h
    exact Option.noConfusion h
  · rw [if_neg hz] at h
    injection h with h
    rw [← h]
    exact slices_flatten (l.length / d) (Nat.pos_of_ne_zero hz) _ l rfl

lemma chunkPartition_isSome (l : List Str) (d : Nat) :
    (chunkPartition l d).isSome = true ↔ 1 ≤ l.length / d := by
  simp only [chunkPartition]
  by_cases hz : l.length / d = 0
  · rw [if_pos hz]
    simp [hz]
  · rw [if_neg hz]
    simp [Nat.one_le_iff_ne_zero, hz]

/-! ### Result-reducer lemmas -/

/-- The covered-lists recorded for a candidate `k` among a list of
`(candidate, covered-list)` pairs, in order. -/
def valsFor (k : Str) (pairs : List (Str × List Str)) : List (List Str) :=
  (pairs.filter (fun p => decide (p.1 = k))).map (fun p => p.2)

lemma reducePairs_append (acc : MatchMap) (p q : List (Str × List Str)) :
    reducePairs acc (p ++ q) = reducePairs (reducePairs acc p) q := by
  induction p generalizing acc with
  | nil => rfl
  | cons x rest ih =>
      obtain ⟨k, vs⟩ := x
      rw [List.cons_append]
      simp only [reducePairs]
      exact ih (extendEntry acc k vs)

lemma reduceMappings_eq_flatten (ms : List MatchMap) :
    reduceMappings ms = reducePairs [] ms.flatten := by
  suffices h : ∀ acc, ms.foldl reducePairs acc = reducePairs acc ms.flatten by
    exact h []
  induction ms with
  | nil => intro acc; rfl
  | cons m ms' ih =>
      intro acc
      rw [List.foldl_cons, ih (reducePairs acc m), List.flatten_cons,
        reducePairs_append]

lemma alookup_reducePairs (pairs : List (Str × List Str)) :
    ∀ (acc : MatchMap) (k : Str),
      alookup (reducePairs acc pairs) k =
        match alookup acc k with
        | some v => some (v ++ (valsFor k pairs).flatten)
        | none =>
            if (valsFor k pairs).isEmpty = true then none
            else some ((valsFor k pairs).flatten) := by
  induction pairs with
  | nil =>
      intro acc k
      simp only [reducePairs, valsFor, List.filter_nil, List.map_nil,
        List.flatten_nil, List.isEmpty_nil, List.append_nil]
      rcases alookup acc k with _ | v <;> rfl
  | cons x rest ih =>
      intro acc k
      obtain ⟨k0, vs0⟩ := x
      simp only [reducePairs]
      rw [ih (extendEntry acc k0 vs0) k, alookup_extendEntry]
      by_cases hk : k = k0
      · subst hk
        rw [if_pos rfl]
        have hfil : valsFor k ((k, vs0) :: rest) = vs0 :: valsFor k rest := by
          simp [valsFor, List.filter_cons]
        rw [hfil]
        rcases alookup acc k with _ | v
        · simp
        · simp
      · rw [if_neg hk]
        have hfil : valsFor k ((k0, vs0) :: rest) = valsFor k rest := by
          have : ¬(k0 = k) := fun hh => hk hh.symm
          simp [valsFor, List.filter_cons, this]
        rw [hfil]

lemma dedupFirstAux_congr {s1 s2 : List Str}
    (h : ∀ x, x ∈ s1 ↔ x ∈ s2) (l : List Str) :
    dedupFirstAux s1 l = dedupFirstAux s2 l := by
  induction l generalizing s1 s2 with
  | nil => rfl
  | cons k rest ih =>
      by_cases hk : k ∈ s1
      · rw [dedupFirstAux, if_pos hk, dedupFirstAux, if_pos ((h k).mp hk)]
        exact ih h
      · rw [dedupFirstAux, if_neg hk, dedupFirstAux,
          if_neg (fun hc => hk ((h k).mpr hc))]
        refine congrArg _ (ih ?_)
        intro x
        simp only [List.mem_cons]
        rw [h x]

lemma akeys_append (a b : MatchMap) : akeys (a ++ b) = akeys a ++ akeys b := by
  simp [akeys]

lemma akeys_reducePairs (pairs : List (Str × List Str)) :
    ∀ (acc : MatchMap),
      akeys (reducePairs acc pairs) =
        akeys acc ++ dedupFirstAux (akeys acc) (pairs.map (fun p => p.1)) := by
  induction pairs with
  | nil => intro acc; simp [reducePairs, dedupFirstAux]
  | cons x rest ih =>
      intro acc
      obtain ⟨k0, vs0⟩ := x
      simp only [reducePairs, List.map_cons]
      rw [ih (extendEntry acc k0 vs0), akeys_extendEntry]
      by_cases hk : k0 ∈ akeys acc
      · rw [if_pos hk, dedupFirstAux, if_pos hk]
      · rw [if_neg hk, dedupFirstAux, if_neg hk]
        have hcg : ∀ x : Str, x ∈ akeys acc ++ [k0] ↔ x ∈ k0 :: akeys acc := by
          intro x
          simp [List.mem_append, List.mem_cons, or_comm]
        rw [dedupFirstAux_congr hcg (rest.map (fun p => p.1)),
          List.append_assoc]
        rfl

lemma extendEntry_append_right {pre : MatchMap} {k : Str} (macc : MatchMap)
    (vs : List Str) (h : k ∉ akeys pre) :
    extendEntry (pre ++ macc) k vs = pre ++ extendEntry macc k vs := by
  induction pre with
  | nil => simp
  | cons p rest ih =>
      obtain ⟨k0, v0⟩ := p
      simp only [akeys, List.map_cons, List.mem_cons] at h
      push_neg at h
      have h1 : ¬(k0 = k) := fun hh => h.1 hh.symm
      simp only [List.cons_append, extendEntry, if_neg h1, List.cons.injEq,
        true_and]
      exact ih (by simpa [akeys] using h.2)

lemma reducePairs_fresh (pairs : List (Str × List Str)) :
    ∀ (acc : MatchMap), (pairs.map (fun p => p.1)).Nodup →
      (∀ p ∈ pairs, p.1 ∉ akeys acc) →
      reducePairs acc pairs = acc ++ pairs := by
  induction pairs with
  | nil => intro acc _ _; simp [reducePairs]
  | cons x rest ih =>
      intro acc hnd hfresh
      obtain ⟨k0, vs0⟩ := x
      simp only [List.map_cons, List.nodup_cons] at hnd
      simp only [reducePairs]
      rw [extendEntry_not_mem vs0 (hfresh (k0, vs0) (List.mem_cons_self _ _)),
        ih (acc ++ [(k0, vs0)]) hnd.2]
      · rw [List.append_assoc]
        rfl
      · intro p hp
        rw [akeys_append]
        intro hc
        rcases List.mem_append.mp hc with hc1 | hc2
        · exact hfresh p (List.mem_cons_of_mem _ hp) hc1
        · have hpk : p.1 = k0 := by simpa [akeys] using hc2
          exact hnd.1 (hpk ▸ List.mem_map_of_mem (fun p => p.1) hp)

lemma reducePairs_append_left {pre : MatchMap}
    (pairs : List (Str × List Str)) :
    ∀ (acc : MatchMap), (∀ p ∈ pairs, p.1 ∉ akeys pre) →
      reducePairs (pre ++ acc) pairs = pre ++ reducePairs acc pairs := by
  induction pairs with
  | nil => intro acc _; rfl
  | cons x rest ih =>
      intro acc hfresh
      obtain ⟨k0, vs0⟩ := x
      simp only [reducePairs]
      rw [extendEntry_append_right acc vs0
          (hfresh (k0, vs0) (List.mem_cons_self _ _)),
        ih (extendEntry acc k0 vs0)
          (fun p hp => hfresh p (List.mem_cons_of_mem _ hp))]

lemma foldl_reducePairs_shift (ms : List MatchMap) :
    ∀ {pre acc : MatchMap},
      (∀ m ∈ ms, ∀ p ∈ m, p.1 ∉ akeys pre) →
      ms.foldl reducePairs (pre ++ acc) = pre ++ ms.foldl reducePairs acc := by
  induction ms with
  | nil => intro pre acc _; rfl
  | cons m ms' ih =>
      intro pre acc hfresh
      rw [List.foldl_cons, List.foldl_cons,
        reducePairs_append_left m acc (hfresh m (List.mem_cons_self _ _)),
        ih (fun m2 hm2 => hfresh m2 (List.mem_cons_of_mem _ hm2))]

lemma mapChunks_mem {acqs : List DT} {cs : List (List Str)}
    {ms : List MatchMap} (h : mapChunks acqs cs = some ms) :
    ∀ m ∈ ms, ∃ c ∈ cs, processFilteredEofChunk c acqs 2 = some m := by
  induction cs generalizing ms with
  | nil =>
      simp only [mapChunks, Option.some.injEq] at h
      subst h
      intro m hm
      simp at hm
  | cons c cs' ih =>
      simp only [mapChunks] at h
      rcases hc : processFilteredEofChunk c acqs 2 with _ | mc
      · rw [hc] at h
        exact Option.noConfusion h
      · rw [hc] at h
        rcases hcs : mapChunks acqs cs' with _ | ms'
        · rw [hcs] at h
          exact Option.noConfusion h
        · rw [hcs] at h
          injection h with h
          subst h
          intro m hm
          rcases List.mem_cons.mp hm with rfl | hm'
          · exact ⟨c, List.mem_cons_self _ _, hc⟩
          · obtain ⟨c2, hc2, hm2⟩ := ih hcs m hm'
            exact ⟨c2, List.mem_cons_of_mem _ hc2, hm2⟩

lemma mem_akeys_exists {m : MatchMap} {k : Str} (h : k ∈ akeys m) :
    ∃ vs, (k, vs) ∈ m := by
  simp only [akeys, List.mem_map] at h
  obtain ⟨p, hp, hk⟩ := h
  exact ⟨p.2, by rw [← hk]; exact hp⟩

lemma matcher_keys_sub {chunk : List Str} {acqs : List DT} {v : Nat}
    {mc : MatchMap} (h : processFilteredEofChunk chunk acqs v = some mc)
    {k : Str} (hk : k ∈ akeys mc) : k ∈ chunk := by
  obtain ⟨vs, hmem⟩ := mem_akeys_exists hk
  rcases matchGo_mem h hmem with hin | ⟨hin, -⟩
  · simp at hin
  · exact hin

/-! ### Composition of chunked matching and reduction -/

lemma processFilteredEofChunk_def (chunk : List Str) (acqs : List DT)
    (v : Nat) : processFilteredEofChunk chunk acqs v = matchGo acqs v chunk [] :=
  rfl

lemma matchGo_append_some {acqs : List DT} {v : Nat} {a : List Str}
    (b : List Str) {m m1 : MatchMap} (h : matchGo acqs v a m = some m1) :
    matchGo acqs v (a ++ b) m = matchGo acqs v b m1 := by
  rw [matchGo_append, h]

lemma matcher_chunks_flatten (acqs : List DT) :
    ∀ (cs : List (List Str)) (ms : List MatchMap),
      (cs.flatten).Nodup → mapChunks acqs cs = some ms →
      processFilteredEofChunk cs.flatten acqs 2 = some (reduceMappings ms) := by
  intro cs
  induction cs with
  | nil =>
      intro ms hnd h
      simp only [mapChunks, Option.some.injEq] at h
      subst h
      rfl
  | cons c cs' ih =>
      intro ms hnd h
      simp only [mapChunks] at h
      rcases hc : processFilteredEofChunk c acqs 2 with _ | mc
      · rw [hc] at h
        exact Option.noConfusion h
      rcases hcs : mapChunks acqs cs' with _ | ms'
      · rw [hc, hcs] at h
        exact Option.noConfusion h
      rw [hc, hcs] at h
      injection h with h
      subst h
      rw [List.flatten_cons] at hnd
      rw [List.nodup_append] at hnd
      obtain ⟨hndc, hndf, hdisj⟩ := hnd
      rw [List.flatten_cons, processFilteredEofChunk_def,
        matchGo_append_some _ (hc.trans rfl)]
      have hkeys : ∀ k ∈ akeys mc, k ∉ cs'.flatten := fun k hk hcf =>
        hdisj (matcher_keys_sub hc hk) hcf
      have hshift : matchGo acqs 2 cs'.flatten mc =
          (matchGo acqs 2 cs'.flatten []).map (fun mb => mc ++ mb) := by
        have hsh : matchGo acqs 2 cs'.flatten (mc ++ []) =
            (matchGo acqs 2 cs'.flatten []).map (fun mb => mc ++ mb) :=
          matchGo_shift ([] : MatchMap) hkeys
        rwa [List.append_nil] at hsh
      rw [hshift, ← processFilteredEofChunk_def, ih ms' hndf hcs]
      have hmcnd : (akeys mc).Nodup := matchGo_nodup hc (by simp [akeys])
      have h1 : reducePairs [] mc = mc := by
        have := reducePairs_fresh mc [] hmcnd (by simp [akeys])
        rwa [List.nil_append] at this
      have h2 : ∀ m2 ∈ ms', ∀ p ∈ m2, p.1 ∉ akeys mc := by
        intro m2 hm2 p hp hcontra
        obtain ⟨c2, hc2, hmc2⟩ := mapChunks_mem hcs m2 hm2
        have h3 : p.1 ∈ c := matcher_keys_sub hc hcontra
        have h4 : p.1 ∈ c2 := by
          refine matcher_keys_sub hmc2 ?_
          simp only [akeys, List.mem_map]
          exact ⟨p, hp, rfl⟩
        exact hdisj h3 (List.mem_flatten_of_mem hc2 h4)
      have hred : reduceMappings (mc :: ms') = mc ++ reduceMappings ms' := by
        show (mc :: ms').foldl reducePairs [] = _
        rw [List.foldl_cons, h1]
        have h5 : ms'.foldl reducePairs (mc ++ []) =
            mc ++ ms'.foldl reducePairs [] := foldl_reducePairs_shift ms' h2
        rw [List.append_nil] at h5
        exact h5
      rw [hred]
      rfl

/-! ### Sortedness, reduced-entry and dispatch lemmas -/

lemma leB_refl (t : DT) : DT.leB t t = true := by
  simp [DT.leB]

lemma mem_extendEntry {m : MatchMap} {k a : Str} {vs b : List Str}
    (h : (a, b) ∈ extendEntry m k vs) :
    (a, b) ∈ m ∨ (a = k ∧ (b = vs ∨ ∃ old, (k, old) ∈ m ∧ b = old ++ vs)) := by
  induction m with
  | nil =>
      simp only [extendEntry, List.mem_singleton, Prod.mk.injEq] at h
      exact Or.inr ⟨h.1, Or.inl h.2⟩
  | cons p rest ih =>
      obtain ⟨k0, v0⟩ := p
      by_cases h0 : k0 = k
      · subst h0
        simp only [extendEntry, if_pos rfl] at h
        cases h with
        | head => exact Or.inr ⟨rfl, Or.inr ⟨v0, List.mem_cons_self _ _, rfl⟩⟩
        | tail b2 hm => exact Or.inl (List.mem_cons_of_mem _ hm)
      · simp only [extendEntry, if_neg h0] at h
        cases h with
        | head => exact Or.inl (List.mem_cons_self _ _)
        | tail b2 hm =>
            rcases ih hm with h2 | ⟨ha, h2⟩
            · exact Or.inl (List.mem_cons_of_mem _ h2)
            · refine Or.inr ⟨ha, ?_⟩
              rcases h2 with h2 | ⟨old, hold, hb⟩
              · exact Or.inl h2
              · exact Or.inr ⟨old, List.mem_cons_of_mem _ hold, hb⟩

/-- Entry invariant for the reducer: every value is a prefix copy of the
exact matcher value for its key, possibly extended by further copies. -/
def entryProp (acqs : List DT) (k : Str) (vs : List Str) : Prop :=
  ∃ st en suffix, candidateInterval k 2 = some (st, en) ∧
    (acqs.filter (coveredBy st en)).isEmpty = false ∧
    vs = coveredDates acqs st en ++ suffix

/-- Exact matcher-output entry description. -/
def baseProp (acqs : List DT) (k : Str) (vs : List Str) : Prop :=
  ∃ st en, candidateInterval k 2 = some (st, en) ∧
    (acqs.filter (coveredBy st en)).isEmpty = false ∧
    vs = coveredDates acqs st en

lemma reducePairs_entry {acqs : List DT} (pairs : List (Str × List Str)) :
    ∀ (acc : MatchMap), (∀ p ∈ pairs, baseProp acqs p.1 p.2) →
      (∀ q ∈ acc, entryProp acqs q.1 q.2) →
      ∀ q ∈ reducePairs acc pairs, entryProp acqs q.1 q.2 := by
  induction pairs with
  | nil =>
      intro acc _ hacc q hq
      exact hacc q hq
  | cons x rest ih =>
      intro acc hbase hacc q hq
      obtain ⟨k0, vs0⟩ := x
      simp only [reducePairs] at hq
      refine ih (extendEntry acc k0 vs0)
        (fun p hp => hbase p (List.mem_cons_of_mem _ hp)) ?_ q hq
      intro q2 hq2
      obtain ⟨a, b⟩ := q2
      show entryProp acqs a b
      have hb0 : baseProp acqs k0 vs0 :=
        hbase (k0, vs0) (List.mem_cons_self _ _)
      obtain ⟨st, en, hi, hne, hval⟩ := hb0
      rcases mem_extendEntry hq2 with h2 | ⟨rfl, h2⟩
      · exact hacc _ h2
      · rcases h2 with rfl | ⟨old, hold, rfl⟩
        · exact ⟨st, en, [], hi, hne, by rw [hval, List.append_nil]⟩
        · have he : entryProp acqs a old := hacc _ hold
          obtain ⟨st2, en2, suf2, hi2, hne2, hval2⟩ := he
          have hsame : st2 = st ∧ en2 = en := by
            have := hi2.symm.trans hi
            simpa using this
          obtain ⟨rfl, rfl⟩ := hsame
          exact ⟨st2, en2, suf2 ++ vs0, hi2, hne2,
            by rw [hval2, List.append_assoc]⟩

lemma reduceMappings_entry {acqs : List DT} {cs : List (List Str)}
    {ms : List MatchMap} (hms : mapChunks acqs cs = some ms) :
    ∀ q ∈ reduceMappings ms, entryProp acqs q.1 q.2 := by
  rw [reduceMappings_eq_flatten]
  refine reducePairs_entry ms.flatten [] ?_ (by simp)
  intro p hp
  obtain ⟨m, hm, hpm⟩ := List.mem_flatten.mp hp
  obtain ⟨c, -, hmc⟩ := mapChunks_mem hms m hm
  obtain ⟨a, b⟩ := p
  rcases matchGo_mem hmc hpm with hin | ⟨-, st, en, hi, hne, hval⟩
  · simp at hin
  · exact ⟨st, en, hi, hne, hval⟩

lemma dedupFirstAux_nodup (l : List Str) :
    ∀ (seen : List Str),
      (dedupFirstAux seen l).Nodup ∧ ∀ x ∈ dedupFirstAux seen l, x ∉ seen := by
  induction l with
  | nil => intro seen; simp [dedupFirstAux]
  | cons k rest ih =>
      intro seen
      by_cases hk : k ∈ seen
      · rw [dedupFirstAux, if_pos hk]
        exact ih seen
      · rw [dedupFirstAux, if_neg hk]
        obtain ⟨hnd, hnin⟩ := ih (k :: seen)
        constructor
        · rw [List.nodup_cons]
          refine ⟨fun hc => ?_, hnd⟩
          exact hnin k hc (List.mem_cons_self _ _)
        · intro x hx
          rcases List.mem_cons.mp hx with rfl | hx'
          · exact hk
          · exact fun hc => hnin x hx' (List.mem_cons_of_mem _ hc)

lemma reduceMappings_nodup (ms : List MatchMap) :
    (akeys (reduceMappings ms)).Nodup := by
  rw [reduceMappings_eq_flatten, akeys_reducePairs]
  simp only [akeys, List.map_nil, List.nil_append]
  exact (dedupFirstAux_nodup _ []).1

lemma dispatchList_cons (k0 : Str) (v0 : List Str) (g : MatchMap) :
    dispatchList ((k0, v0) :: g) = (k0, v0.headD []) :: dispatchList g := rfl

lemma dispatch_filter_nil {g : MatchMap} {k : Str} (h : k ∉ akeys g) :
    (dispatchList g).filter (fun p => decide (p.1 = k)) = [] := by
  induction g with
  | nil => rfl
  | cons p rest ih =>
      obtain ⟨k0, v0⟩ := p
      simp only [akeys, List.map_cons, List.mem_cons] at h
      push_neg at h
      rw [dispatchList_cons, List.filter_cons]
      rw [if_neg (by simp; exact fun hh => h.1 hh.symm)]
      exact ih (by simpa [akeys] using h.2)

lemma dispatch_filter {g : MatchMap} (hnd : (akeys g).Nodup) {k : Str}
    {vs : List Str} (hmem : (k, vs) ∈ g) :
    (dispatchList g).filter (fun p => decide (p.1 = k)) =
      [(k, vs.headD [])] := by
  induction g with
  | nil => simp at hmem
  | cons p rest ih =>
      obtain ⟨k0, v0⟩ := p
      simp only [akeys, List.map_cons, List.nodup_cons] at hnd
      cases hmem with
      | head =>
          rw [dispatchList_cons, List.filter_cons, if_pos (by simp),
            dispatch_filter_nil (by simpa [akeys] using hnd.1)]
      | tail b hm =>
          have hk : k ∈ List.map (fun p => p.1) rest := by
            simp only [List.mem_map]
            exact ⟨(k, vs), hm, rfl⟩
          have hne : ¬(k0 = k) := fun hh => hnd.1 (hh ▸ hk)
          rw [dispatchList_cons, List.filter_cons,
            if_neg (by simp; exact hne)]
          exact ih hnd.2 hm

/-! ### Claim theorems -/

/-- Claim C1.  Interval Matcher postcondition: over a sorted acquisition
sequence, a candidate whose validity interval parses appears as a key of
the chunk's `MatchMapping` iff at least one acquisition timestamp lies
inside the closed interval (both endpoints inclusive); when present, its
value is exactly the list of all covered timestamps, re-serialized in
the fixed format, in acquisition order; a candidate covering zero
acquisitions is absent from the mapping. -/
theorem interval_matcher_postcondition (chunk : List Str) (acqs : List DT)
    (m : MatchMap) (s : Str) (st en : DT)
    (hsort : acqs.Pairwise (fun a b => DT.leB a b = true))
    (hm : processFilteredEofChunk chunk acqs 2 = some m)
    (hs : s ∈ chunk) (hi : candidateInterval s 2 = some (st, en)) :
    ((alookup m s).isSome = true ↔
      ∃ t ∈ acqs, DT.leB st t = true ∧ DT.leB t en = true) ∧
    ∀ vs, alookup m s = some vs →
      vs = (acqs.filter (coveredBy st en)).map strftimeEOF := by
  have hm' : matchGo acqs 2 chunk [] = some m := hm
  have hl := matchGo_lookup hm' hs hi
  have hiff : (acqs.filter (coveredBy st en)).isEmpty = false ↔
      ∃ t ∈ acqs, DT.leB st t = true ∧ DT.leB t en = true := by
    constructor
    · intro hfe
      have hne : acqs.filter (coveredBy st en) ≠ [] := by
        intro h0
        rw [h0] at hfe
        simp at hfe
      obtain ⟨t, ht⟩ := List.exists_mem_of_ne_nil _ hne
      have hmem := List.mem_filter.mp ht
      have hcb := hmem.2
      simp only [coveredBy, Bool.and_eq_true] at hcb
      exact ⟨t, hmem.1, hcb.1, hcb.2⟩
    · rintro ⟨t, ht, h1, h2⟩
      by_contra hfe
      have htrue : (acqs.filter (coveredBy st en)).isEmpty = true := by
        simpa using hfe
      rw [List.isEmpty_iff] at htrue
      have hmem : t ∈ acqs.filter (coveredBy st en) :=
        List.mem_filter.mpr ⟨ht, by simp [coveredBy, h1, h2]⟩
      rw [htrue] at hmem
      simp at hmem
  constructor
  · by_cases hemp : (acqs.filter (coveredBy st en)).isEmpty = true
    · rw [hl, if_pos hemp]
      constructor
      · intro hsome
        exact absurd hsome (by simp [alookup])
      · intro hex
        have hcontra := hiff.mpr hex
        rw [hemp] at hcontra
        exact Bool.noConfusion hcontra
    · rw [hl, if_neg hemp]
      constructor
      · intro _
        exact hiff.mp (by simpa using hemp)
      · intro _
        rfl
  · intro vs hvs
    rw [hl] at hvs
    by_cases hemp : (acqs.filter (coveredBy st en)).isEmpty = true
    · rw [if_pos hemp] at hvs
      exact absurd hvs (by simp [alookup])
    · rw [if_neg hemp] at hvs
      injection hvs with hvs
      rw [← hvs]
      rfl

/-- Witness for C1 on a concrete chunk and acquisition sequence. -/
theorem interval_matcher_postcondition_witness :
    ((alookup [("S1A_OPER_AUX_POEORB_V20210104T000000_20210106T000000.EOF".data,
        ["20210105T000000".data])]
        "S1A_OPER_AUX_POEORB_V20210104T000000_20210106T000000.EOF".data).isSome = true ↔
      ∃ t ∈ [(⟨2021, 1, 5, 0, 0, 0⟩ : DT), ⟨2021, 1, 7, 0, 0, 0⟩],
        DT.leB ⟨2021, 1, 4, 0, 0, 0⟩ t = true ∧
        DT.leB t ⟨2021, 1, 6, 0, 0, 0⟩ = true) ∧
    ∀ vs, alookup [("S1A_OPER_AUX_POEORB_V20210104T000000_20210106T000000.EOF".data,
        ["20210105T000000".data])]
        "S1A_OPER_AUX_POEORB_V20210104T000000_20210106T000000.EOF".data = some vs →
      vs = ([(⟨2021, 1, 5, 0, 0, 0⟩ : DT), ⟨2021, 1, 7, 0, 0, 0⟩].filter
        (coveredBy ⟨2021, 1, 4, 0, 0, 0⟩ ⟨2021, 1, 6, 0, 0, 0⟩)).map strftimeEOF :=
  interval_matcher_postcondition
    ["S1A_OPER_AUX_POEORB_V20210104T000000_20210106T000000.EOF".data]
    [⟨2021, 1, 5, 0, 0, 0⟩, ⟨2021, 1, 7, 0, 0, 0⟩]
    [("S1A_OPER_AUX_POEORB_V20210104T000000_20210106T000000.EOF".data,
      ["20210105T000000".data])]
    "S1A_OPER_AUX_POEORB_V20210104T000000_20210106T000000.EOF".data
    ⟨2021, 1, 4, 0, 0, 0⟩ ⟨2021, 1, 6, 0, 0, 0⟩
    (by decide) (by decide) (by decide) (by decide)

/-- Counterexample to C2 as stated: on the one-element candidate list
with the configured divisor `4`, the partitioner raises (`range()` step
`0`) and produces no chunks at all, so no concatenation equals the
original list. -/
theorem chunk_partition_small_list_error :
    chunkPartition ["x".data] 4 = none ∧
    chunkPartition ["x".data] 4 ≠ some [["x".data]] := by
  decide

/-- Claim C2 (amended).  Whenever the Chunk Partitioner succeeds (chunk
size `M // D` at least `1`), the concatenation of the produced chunks,
in order, equals the original candidate list exactly; when `M // D = 0`
the partitioner raises instead of producing chunks. -/
theorem chunk_partition_completeness (l : List Str) (d : Nat)
    (cs : List (List Str)) (h : chunkPartition l d = some cs) :
    cs.flatten = l :=
  chunkPartition_flatten h

/-- Witness for C2 on a five-element list with divisor `4`. -/
theorem chunk_partition_completeness_witness :
    chunkPartition ["a".data, "b".data, "c".data, "d".data, "e".data] 4 =
      some [["a".data], ["b".data], ["c".data], ["d".data], ["e".data]] ∧
    [["a".data], ["b".data], ["c".data], ["d".data], ["e".data]].flatten =
      ["a".data, "b".data, "c".data, "d".data, "e".data] :=
  ⟨by decide, chunk_partition_completeness _ 4 _ (by decide)⟩

/-- Counterexample to C3 as stated: with `M = 0` the partitioner does
not yield an empty chunk list but raises (`range()` arg 3 must not be
zero), and with `0 < M < D` it does not yield a single chunk either. -/
theorem chunk_partitioner_raises_counterexample :
    chunkPartition ([] : List Str) 4 = none ∧
    chunkPartition ["x".data, "y".data] 4 = none ∧
    chunkPartition ["x".data, "y".data] 4 ≠ some [["x".data, "y".data]] := by
  decide

/-- Claim C3 (amended).  The Chunk Partitioner completes without an
error exactly when the chunk size `M // D` is at least `1`; whenever
`M // D = 0` — including `M = 0` and every `0 < M < D` — the slicing
raises an uncaught `ValueError` from `range()` with step `0` and no
chunks are produced. -/
theorem chunk_partitioner_error_condition (l : List Str) (d : Nat) :
    (chunkPartition l d).isSome = true ↔ 1 ≤ l.length / d :=
  chunkPartition_isSome l d

/-- Witness for C3 at a concrete successful input. -/
theorem chunk_partitioner_error_condition_witness :
    (chunkPartition ["a".data, "b".data, "c".data, "d".data, "e".data] 4).isSome = true :=
  (chunk_partitioner_error_condition
    ["a".data, "b".data, "c".data, "d".data, "e".data] 4).mpr (by decide)

/-- Counterexample to C4 as stated: one identifier without the embedded
pattern does not merely drop that identifier — the whole extraction
returns nothing (the `AttributeError` from `.group(1)` on `None` is
uncaught), so the well-formed identifier is lost too. -/
theorem extraction_failure_counterexample :
    extractDates ["S1A_IW_SLC_notime.zip".data,
      "S1A_IW_20210105T120000.zip".data] = none ∧
    extractDates ["S1A_IW_SLC_notime.zip".data,
      "S1A_IW_20210105T120000.zip".data] ≠
      some ["20210105T120000".data] := by
  decide

/-- Claim C4 (amended).  For every acquisition identifier list
containing an identifier with no 15-character `DATE8-T-TIME6`
substring, `re.search` returns `None`, `.group(1)` raises an uncaught
`AttributeError`, and the whole extraction aborts: the identifier is
not excluded and the run does not continue past extraction. -/
theorem extraction_failure_aborts (files : List Str) (f : Str)
    (hf : f ∈ files) (hnone : reSearchAcq f = none) :
    extractDates files = none := by
  induction files with
  | nil => simp at hf
  | cons g rest ih =>
      rcases List.mem_cons.mp hf with rfl | hf'
      · simp [extractDates, hnone]
      · simp only [extractDates]
        rw [ih hf']
        rcases reSearchAcq g with _ | d <;> rfl

/-- Witness for C4 at a concrete file list. -/
theorem extraction_failure_aborts_witness :
    extractDates ["S1A_nodate.zip".data,
      "S1A_20210105T120000.zip".data] = none :=
  extraction_failure_aborts _ ("S1A_nodate.zip".data) (by decide) (by decide)

/-- Counterexample to C5 as stated: with a candidate string duplicated
across two different chunks, the chunked-and-reduced global mapping
concatenates the two covered-lists, while the single sequential run
over the undivided list overwrites the dictionary entry and keeps one
copy — the two mappings differ. -/
theorem parallel_sequential_counterexample :
    chunkPartition
      ["S1A_V20210101T000000_20210110T000000.EOF".data,
       "S1A_V20210101T000000_20210110T000000.EOF".data,
       "S1A_A_B".data, "S1A_A_B".data] 4 =
      some [["S1A_V20210101T000000_20210110T000000.EOF".data],
            ["S1A_V20210101T000000_20210110T000000.EOF".data],
            ["S1A_A_B".data], ["S1A_A_B".data]] ∧
    mapChunks [⟨2021, 1, 5, 0, 0, 0⟩]
      [["S1A_V20210101T000000_20210110T000000.EOF".data],
       ["S1A_V20210101T000000_20210110T000000.EOF".data],
       ["S1A_A_B".data], ["S1A_A_B".data]] =
      some [[("S1A_V20210101T000000_20210110T000000.EOF".data,
              ["20210105T000000".data])],
            [("S1A_V20210101T000000_20210110T000000.EOF".data,
              ["20210105T000000".data])], [], []] ∧
    reduceMappings
      [[("S1A_V20210101T000000_20210110T000000.EOF".data,
         ["20210105T000000".data])],
       [("S1A_V20210101T000000_20210110T000000.EOF".data,
         ["20210105T000000".data])], [], []] =
      [("S1A_V20210101T000000_20210110T000000.EOF".data,
        ["20210105T000000".data, "20210105T000000".data])] ∧
    processFilteredEofChunk
      ["S1A_V20210101T000000_20210110T000000.EOF".data,
       "S1A_V20210101T000000_20210110T000000.EOF".data,
       "S1A_A_B".data, "S1A_A_B".data] [⟨2021, 1, 5, 0, 0, 0⟩] 2 =
      some [("S1A_V20210101T000000_20210110T000000.EOF".data,
             ["20210105T000000".data])] ∧
    some [("S1A_V20210101T000000_20210110T000000.EOF".data,
           ["20210105T000000".data, "20210105T000000".data])] ≠
      processFilteredEofChunk
        ["S1A_V20210101T000000_20210110T000000.EOF".data,
         "S1A_V20210101T000000_20210110T000000.EOF".data,
         "S1A_A_B".data, "S1A_A_B".data] [⟨2021, 1, 5, 0, 0, 0⟩] 2 :=
  ⟨by decide, by decide, by decide, by decide, by decide⟩

/-- Claim C5 (amended).  Provided no candidate string occurs twice in
the candidate list (so no candidate can fall into two chunks) and the
partitioned run completes, reducing the per-chunk mappings yields a
global mapping identical — same keys, same covered-lists, same key
order — to running the matcher once over the whole undivided list. -/
theorem parallel_sequential_equivalence (cands : List Str) (acqs : List DT)
    (d : Nat) (cs : List (List Str)) (ms : List MatchMap)
    (hnd : cands.Nodup) (hchunk : chunkPartition cands d = some cs)
    (hms : mapChunks acqs cs = some ms) :
    processFilteredEofChunk cands acqs 2 = some (reduceMappings ms) := by
  have hflat : cs.flatten = cands := chunkPartition_flatten hchunk
  have hres := matcher_chunks_flatten acqs cs ms (by rw [hflat]; exact hnd) hms
  rwa [hflat] at hres

/-- Witness for C5 on a concrete duplicate-free pipeline. -/
theorem parallel_sequential_equivalence_witness :
    processFilteredEofChunk
      ["S1A_V20210101T000000_20210110T000000.EOF".data,
       "S1A_A_B".data, "S1A_C_D".data, "S1A_E_F".data]
      [⟨2021, 1, 5, 0, 0, 0⟩] 2 =
      some (reduceMappings
        [[("S1A_V20210101T000000_20210110T000000.EOF".data,
           ["20210105T000000".data])], [], [], []]) :=
  parallel_sequential_equivalence
    ["S1A_V20210101T000000_20210110T000000.EOF".data,
     "S1A_A_B".data, "S1A_C_D".data, "S1A_E_F".data]
    [⟨2021, 1, 5, 0, 0, 0⟩] 4
    [["S1A_V20210101T000000_20210110T000000.EOF".data],
     ["S1A_A_B".data], ["S1A_C_D".data], ["S1A_E_F".data]]
    [[("S1A_V20210101T000000_20210110T000000.EOF".data,
       ["20210105T000000".data])], [], [], []]
    (by decide) (by decide) (by decide)

/-- Counterexample to C6 as stated: a candidate with no underscore (its
trailing tokens certainly do not parse as timestamps) is not dropped
with the rest of the chunk processed — `timestamps[-2]` raises an
uncaught `IndexError` and the whole chunk computation aborts, losing
the well-formed candidate as well. -/
theorem parse_failure_isolation_counterexample :
    processFilteredEofChunk
      ["S1A".data, "S1A_V20210101T000000_20210110T000000.EOF".data]
      [⟨2021, 1, 5, 0, 0, 0⟩] 2 = none ∧
    processFilteredEofChunk
      ["S1A".data, "S1A_V20210101T000000_20210110T000000.EOF".data]
      [⟨2021, 1, 5, 0, 0, 0⟩] 2 ≠
      some [("S1A_V20210101T000000_20210110T000000.EOF".data,
             ["20210105T000000".data])] := by
  decide

/-- Claim C6 (amended).  For every chunk whose candidates each split
into at least two underscore-separated fields (so both validity-token
positions exist), a candidate whose trailing tokens fail to parse under
the fixed date format is alone dropped — the chunk completes, the
result equals the run over the parseable candidates only, and the
failing candidate is absent from the mapping.  A candidate with fewer
than two fields instead raises an uncaught `IndexError` that aborts the
chunk. -/
theorem parse_failure_isolation (chunk : List Str) (acqs : List DT)
    (hlen : ∀ s ∈ chunk, 2 ≤ (candidateTokens s 2).length) :
    ∃ m, processFilteredEofChunk chunk acqs 2 = some m ∧
      processFilteredEofChunk
        (chunk.filter (fun s => (candidateInterval s 2).isSome)) acqs 2 =
        some m ∧
      ∀ s ∈ chunk, candidateInterval s 2 = none → alookup m s = none := by
  have hex : ∃ m, matchGo acqs 2 chunk [] = some m := matchGo_isSome [] hlen
  obtain ⟨m, hm⟩ := hex
  refine ⟨m, hm, ?_, ?_⟩
  · rw [processFilteredEofChunk_def, matchGo_filter [] hlen]
    exact hm
  · intro s hs hnone
    rw [alookup_none_iff]
    intro hk
    obtain ⟨vs, hvs⟩ := mem_akeys_exists hk
    rcases matchGo_mem hm hvs with hin | ⟨-, st, en, hi, -, -⟩
    · simp at hin
    · rw [hnone] at hi
      exact Option.noConfusion hi

/-- Witness for C6 on a chunk with one unparseable and one good
candidate. -/
theorem parse_failure_isolation_witness :
    (∀ s ∈ ["S1A_X_Y".data,
        "S1A_V20210101T000000_20210110T000000.EOF".data],
      2 ≤ (candidateTokens s 2).length) ∧
    ∃ m, processFilteredEofChunk
        ["S1A_X_Y".data,
         "S1A_V20210101T000000_20210110T000000.EOF".data]
        [⟨2021, 1, 5, 0, 0, 0⟩] 2 = some m ∧
      processFilteredEofChunk
        (["S1A_X_Y".data,
          "S1A_V20210101T000000_20210110T000000.EOF".data].filter
          (fun s => (candidateInterval s 2).isSome))
        [⟨2021, 1, 5, 0, 0, 0⟩] 2 = some m ∧
      ∀ s ∈ ["S1A_X_Y".data,
          "S1A_V20210101T000000_20210110T000000.EOF".data],
        candidateInterval s 2 = none → alookup m s = none :=
  ⟨by decide, parse_failure_isolation
    ["S1A_X_Y".data, "S1A_V20210101T000000_20210110T000000.EOF".data]
    [⟨2021, 1, 5, 0, 0, 0⟩] (by decide)⟩

/-- Claim C7.  Result Reducer semantics: iterating all `(candidate,
covered-list)` pairs of the chunk mappings in chunk order, the lookup of
any candidate in the global mapping is exactly the concatenation of all
covered-lists recorded for it, in order and without deduplication
(`none` exactly when no chunk recorded it), and the global key order is
the order of first sight. -/
theorem result_reducer_semantics (ms : List MatchMap) (k : Str) :
    alookup (reduceMappings ms) k =
      (if (valsFor k ms.flatten).isEmpty = true then none
       else some ((valsFor k ms.flatten).flatten)) ∧
    akeys (reduceMappings ms) =
      dedupFirst (ms.flatten.map (fun p => p.1)) := by
  constructor
  · rw [reduceMappings_eq_flatten, alookup_reducePairs]
    rfl
  · rw [reduceMappings_eq_flatten, akeys_reducePairs]
    simp only [akeys, List.map_nil, List.nil_append]
    rfl

/-- Claim C8.  Representative-date selection: for every candidate key
of the global mapping produced by the partitioned pipeline over a
sorted acquisition sequence, exactly one dispatch pair is produced for
that candidate, its date is the serialization of the first entry of the
candidate's covered-list, and that entry is the earliest-in-time
covered acquisition. -/
theorem representative_date_selection (cands : List Str) (acqs : List DT)
    (d : Nat) (cs : List (List Str)) (ms : List MatchMap) (k : Str)
    (hsort : acqs.Pairwise (fun a b => DT.leB a b = true))
    (hchunk : chunkPartition cands d = some cs)
    (hms : mapChunks acqs cs = some ms)
    (hk : k ∈ akeys (reduceMappings ms)) :
    ∃ st en t0 ts,
      candidateInterval k 2 = some (st, en) ∧
      acqs.filter (coveredBy st en) = t0 :: ts ∧
      (dispatchList (reduceMappings ms)).filter
        (fun p => decide (p.1 = k)) = [(k, strftimeEOF t0)] ∧
      ∀ t ∈ acqs.filter (coveredBy st en), DT.leB t0 t = true := by
  obtain ⟨vs, hmem⟩ := mem_akeys_exists hk
  have hE : entryProp acqs k vs := reduceMappings_entry hms (k, vs) hmem
  obtain ⟨st, en, suffix, hi, hne, hval⟩ := hE
  rcases hcov : acqs.filter (coveredBy st en) with _ | ⟨t0, ts⟩
  · rw [hcov] at hne
    simp at hne
  refine ⟨st, en, t0, ts, hi, hcov, ?_, ?_⟩
  · rw [dispatch_filter (reduceMappings_nodup ms) hmem]
    have hhd : vs.headD [] = strftimeEOF t0 := by
      rw [hval]
      simp only [coveredDates, hcov, List.map_cons, List.cons_append,
        List.headD_cons]
    rw [hhd]
  · intro t ht
    have hpw : (acqs.filter (coveredBy st en)).Pairwise
        (fun a b => DT.leB a b = true) := List.Pairwise.filter _ hsort
    rw [hcov] at hpw ht
    rcases List.mem_cons.mp ht with rfl | ht'
    · exact leB_refl t
    · exact (List.pairwise_cons.mp hpw).1 t ht'

/-- Witness for C8 on a concrete pipeline with two covered
acquisitions. -/
theorem representative_date_selection_witness :
    ∃ st en t0 ts,
      candidateInterval
        "S1A_V20210101T000000_20210110T000000.EOF".data 2 = some (st, en) ∧
      [(⟨2021, 1, 5, 0, 0, 0⟩ : DT), ⟨2021, 1, 7, 0, 0, 0⟩].filter
        (coveredBy st en) = t0 :: ts ∧
      (dispatchList (reduceMappings
        [[("S1A_V20210101T000000_20210110T000000.EOF".data,
           ["20210105T000000".data, "20210107T000000".data])], [], [], []])).filter
        (fun p => decide
          (p.1 = "S1A_V20210101T000000_20210110T000000.EOF".data)) =
        [("S1A_V20210101T000000_20210110T000000.EOF".data,
          strftimeEOF t0)] ∧
      ∀ t ∈ [(⟨2021, 1, 5, 0, 0, 0⟩ : DT), ⟨2021, 1, 7, 0, 0, 0⟩].filter
        (coveredBy st en), DT.leB t0 t = true :=
  representative_date_selection
    ["S1A_V20210101T000000_20210110T000000.EOF".data,
     "S1A_A_B".data, "S1A_C_D".data, "S1A_E_F".data]
    [⟨2021, 1, 5, 0, 0, 0⟩, ⟨2021, 1, 7, 0, 0, 0⟩] 4
    [["S1A_V20210101T000000_20210110T000000.EOF".data],
     ["S1A_A_B".data], ["S1A_C_D".data], ["S1A_E_F".data]]
    [[("S1A_V20210101T000000_20210110T000000.EOF".data,
       ["20210105T000000".data, "20210107T000000".data])], [], [], []]
    "S1A_V20210101T000000_20210110T000000.EOF".data
    (by decide) (by decide) (by decide) (by decide)

/-- Counterexample to C9 as stated: the acquisition timestamp parsed
from `09990105T000000` (year 999) serializes under glibc `%Y` without
zero padding to the 14-character `9990105T000000`, which re-parses as
year 9990, month 10, day 5 — not the original timestamp. -/
theorem idempotent_reparse_counterexample :
    strptimeEOF ("09990105T000000".data) = some ⟨999, 1, 5, 0, 0, 0⟩ ∧
    strftimeEOF ⟨999, 1, 5, 0, 0, 0⟩ = "9990105T000000".data ∧
    strptimeEOF (strftimeEOF ⟨999, 1, 5, 0, 0, 0⟩) =
      some ⟨9990, 10, 5, 0, 0, 0⟩ ∧
    (⟨9990, 10, 5, 0, 0, 0⟩ : DT) ≠ ⟨999, 1, 5, 0, 0, 0⟩ := by
  refine ⟨by decide, by decide, by decide, by decide⟩

/-- Claim C9 (amended).  For every acquisition timestamp parsed from
text under the fixed format `%Y%m%dT%H%M%S` whose year has four decimal
digits (year at least 1000), serializing it with that format and
re-parsing the result yields the original timestamp; for earlier years
the unpadded `%Y` rendering breaks the round trip. -/
theorem idempotent_reparse (s : Str) (t : DT) (h : strptimeEOF s = some t)
    (hy : 1000 ≤ t.year) : strptimeEOF (strftimeEOF t) = some t := by
  obtain ⟨h1, h2, h3, h4, h5, h6, h7, h8, h9⟩ := strptimeEOF_valid h
  exact serialize_parse t hy h2 h3 h4 h5 h6 h7 h8 h9

/-- Witness for C9 at a concrete parsed timestamp. -/
theorem idempotent_reparse_witness :
    strptimeEOF (strftimeEOF ⟨2021, 1, 5, 12, 0, 0⟩) =
      some ⟨2021, 1, 5, 12, 0, 0⟩ :=
  idempotent_reparse ("20210105T120000".data) ⟨2021, 1, 5, 12, 0, 0⟩
    (by decide) (by decide)

/-- Claim C10.  Duplicate-candidate asymmetry: a candidate occurring
twice in one chunk yields a single covered-list (the dictionary
assignment replaces the earlier entry), whereas the same candidate
arriving from two different chunk mappings has its covered-lists
concatenated by the reducer — so the global mapping differs between the
two placements. -/
theorem duplicate_candidate_asymmetry (s : Str) (acqs : List DT)
    (st en : DT) (hi : candidateInterval s 2 = some (st, en))
    (hcov : (acqs.filter (coveredBy st en)).isEmpty = false) :
    processFilteredEofChunk [s, s] acqs 2 =
      some [(s, coveredDates acqs st en)] ∧
    (∀ m, processFilteredEofChunk [s] acqs 2 = some m →
      reduceMappings [m, m] =
        [(s, coveredDates acqs st en ++ coveredDates acqs st en)]) ∧
    coveredDates acqs st en ++ coveredDates acqs st en ≠
      coveredDates acqs st en := by
  have hlen := candidateInterval_len hi
  have h1 : processFilteredEofChunk [s] acqs 2 =
      some [(s, coveredDates acqs st en)] := by
    rw [processFilteredEofChunk_def, matchGo_cons_match [] [] hlen hi hcov,
      matchGo_nil]
    rfl
  have h2 : processFilteredEofChunk [s, s] acqs 2 =
      some [(s, coveredDates acqs st en)] := by
    rw [processFilteredEofChunk_def, matchGo_cons_match [s] [] hlen hi hcov,
      matchGo_cons_match [] _ hlen hi hcov, matchGo_nil]
    simp [dictAssign]
  refine ⟨h2, ?_, ?_⟩
  · intro m hm
    rw [h1] at hm
    injection hm with hm
    subst hm
    show ([[(s, coveredDates acqs st en)],
      [(s, coveredDates acqs st en)]].foldl reducePairs []) = _
    simp [reducePairs, extendEntry]
  · intro hc
    have hlen2 := congrArg List.length hc
    rw [List.length_append] at hlen2
    have hlc : (coveredDates acqs st en).length = 0 := by omega
    have hfl : (acqs.filter (coveredBy st en)).length = 0 := by
      simpa [coveredDates] using hlc
    rw [List.length_eq_zero] at hfl
    rw [hfl] at hcov
    simp at hcov

/-- Witness for C10 at a concrete candidate and acquisition list. -/
theorem duplicate_candidate_asymmetry_witness :
    processFilteredEofChunk
      ["S1A_V20210101T000000_20210110T000000.EOF".data,
       "S1A_V20210101T000000_20210110T000000.EOF".data]
      [⟨2021, 1, 5, 0, 0, 0⟩] 2 =
      some [("S1A_V20210101T000000_20210110T000000.EOF".data,
        coveredDates [⟨2021, 1, 5, 0, 0, 0⟩]
          ⟨2021, 1, 1, 0, 0, 0⟩ ⟨2021, 1, 10, 0, 0, 0⟩)] ∧
    (∀ m, processFilteredEofChunk
        ["S1A_V20210101T000000_20210110T000000.EOF".data]
        [⟨2021, 1, 5, 0, 0, 0⟩] 2 = some m →
      reduceMappings [m, m] =
        [("S1A_V20210101T000000_20210110T000000.EOF".data,
          coveredDates [⟨2021, 1, 5, 0, 0, 0⟩]
            ⟨2021, 1, 1, 0, 0, 0⟩ ⟨2021, 1, 10, 0, 0, 0⟩ ++
          coveredDates [⟨2021, 1, 5, 0, 0, 0⟩]
            ⟨2021, 1, 1, 0, 0, 0⟩ ⟨2021, 1, 10, 0, 0, 0⟩)]) ∧
    coveredDates [⟨2021, 1, 5, 0, 0, 0⟩]
      ⟨2021, 1, 1, 0, 0, 0⟩ ⟨2021, 1, 10, 0, 0, 0⟩ ++
    coveredDates [⟨2021, 1, 5, 0, 0, 0⟩]
      ⟨2021, 1, 1, 0, 0, 0⟩ ⟨2021, 1, 10, 0, 0, 0⟩ ≠
    coveredDates [⟨2021, 1, 5, 0, 0, 0⟩]
      ⟨2021, 1, 1, 0, 0, 0⟩ ⟨2021, 1, 10, 0, 0, 0⟩ :=
  duplicate_candidate_asymmetry
    "S1A_V20210101T000000_20210110T000000.EOF".data
    [⟨2021, 1, 5, 0, 0, 0⟩] ⟨2021, 1, 1, 0, 0, 0⟩ ⟨2021, 1, 10, 0, 0, 0⟩
    (by decide) (by decide)

end SentinelOrbit
